import Mathlib

/-!
Verification of the board-state and move-geometry core of the `patroclus`
chess engine against its natural-language specification.

The Rust source is shallowly embedded: `u64` bitboards become `Nat` values
(well-formed when `< 2^64`, with wrapping arithmetic written as `% 2^64`),
squares become `Fin 64`, the `Board` struct becomes a Lean structure whose
mutating methods are pure state-passing functions, and operations that would
panic in Rust (out-of-bounds `roles[Role::King as usize]` indexing,
`Option::unwrap` on `None`) return `Option.none`.
-/

namespace Patroclus

/-- A square index in `[0, 64)`, rank-major (`src/bits/mod.rs`, `Square`). -/
abbrev Square := Fin 64

/-- `Square::flipped` from `src/bits/mod.rs`: point reflection `i ↦ 63 - i`. -/
def Square.flipped (s : Square) : Square := ⟨63 - s.val, by omega⟩

/-- A bitboard is a `u64` occupancy set; we model the value as a `Nat`
that is well-formed when `< 2^64` (`src/bits/mod.rs`, `Bitboard`). -/
abbrev Bitboard := Nat

namespace Bitboard

/-- `Bitboard::empty`. -/
def empty : Bitboard := 0

/-- `Bitboard::square`: `1u64 << s`. -/
def square (s : Square) : Bitboard := 1 <<< s.val

/-- `Bitboard::contains`: `(Bitboard::square(s) & self).is_any()`. -/
def contains (b : Bitboard) (s : Square) : Bool := (square s &&& b) != 0

/-- `Bitboard::insert`: `self.0 |= 1 << s.0` (the Rust method also returns
whether the square was newly inserted; no claim uses that flag). -/
def insert (b : Bitboard) (s : Square) : Bitboard := b ||| (1 <<< s.val)

/-- `Bitboard::remove`: `self.0 &= !(1 << s.0)`, with `!` the `u64`
complement `(2^64 - 1) ^^^ ·`. -/
def remove (b : Bitboard) (s : Square) : Bitboard :=
  b &&& ((2 ^ 64 - 1) ^^^ (1 <<< s.val))

/-- `u64::count_ones` on a well-formed bitboard: the number of set bits
below 64. -/
def count (b : Bitboard) : Nat := (List.range 64).countP (fun i => b.testBit i)

/-- One step of `u64::reverse_bits`: shift the low bit of `x` into `acc`. -/
def revAux : Nat → Nat → Nat → Nat
  | 0, _, acc => acc
  | n + 1, x, acc => revAux n (x / 2) (2 * acc + x % 2)

/-- `u64::reverse_bits`, used by `Bitboard::flipped`. -/
def rev64 (x : Nat) : Nat := revAux 64 x 0

/-- `Bitboard::flipped`: `self.0.reverse_bits()`. -/
def flipped (b : Bitboard) : Bitboard := rev64 b

end Bitboard

/-- `Color` from `src/position/mod.rs` (discriminants 0 and 1). -/
inductive Color where
  | white
  | black
deriving DecidableEq

/-- The array-index discriminant of a `Color`. -/
def Color.idx : Color → Fin 2
  | .white => 0
  | .black => 1

/-- `Role` from `src/position/mod.rs` (discriminants 0..5). -/
inductive Role where
  | pawn
  | knight
  | bishop
  | rook
  | queen
  | king
deriving DecidableEq

/-- The index of a non-king role into the five-entry `roles` array
(`r as usize` in the Rust source); `none` for the king, whose `as usize`
value 5 would be out of bounds for `roles: [Bitboard; 5]`. -/
def Role.pieceIdx : Role → Option (Fin 5)
  | .pawn => some 0
  | .knight => some 1
  | .bishop => some 2
  | .rook => some 3
  | .queen => some 4
  | .king => none

/-- `Piece(Color, Role)` from `src/position/mod.rs`. -/
structure Piece where
  color : Color
  role : Role
deriving DecidableEq

/-- `Board` from `src/position/board.rs`: two color bitboards, five role
bitboards (king excluded), the two king squares, and the mailbox. -/
structure Board where
  colors : Fin 2 → Bitboard
  roles : Fin 5 → Bitboard
  kings : Fin 2 → Square
  pieces : Square → Option Piece

namespace Board

/-- `Board::new`: empty board with the kings on e1 (4) and e8 (60). -/
def new : Board where
  colors := fun i => if i = 0 then Bitboard.square 4 else Bitboard.square 60
  roles := fun _ => Bitboard.empty
  kings := fun i => if i = 0 then (4 : Fin 64) else (60 : Fin 64)
  pieces := fun s =>
    if s = (4 : Fin 64) then some ⟨.white, .king⟩
    else if s = (60 : Fin 64) then some ⟨.black, .king⟩
    else none

/-- The starting-arrangement mailbox (`impl Default for Mailbox`). -/
def defaultMailbox (s : Square) : Option Piece :=
  if s.val ≤ 7 then
    if s.val = 0 ∨ s.val = 7 then some ⟨.white, .rook⟩
    else if s.val = 1 ∨ s.val = 6 then some ⟨.white, .knight⟩
    else if s.val = 2 ∨ s.val = 5 then some ⟨.white, .bishop⟩
    else if s.val = 3 then some ⟨.white, .queen⟩
    else some ⟨.white, .king⟩
  else if s.val ≤ 15 then some ⟨.white, .pawn⟩
  else if s.val < 48 then none
  else if s.val ≤ 55 then some ⟨.black, .pawn⟩
  else
    if s.val = 56 ∨ s.val = 63 then some ⟨.black, .rook⟩
    else if s.val = 57 ∨ s.val = 62 then some ⟨.black, .knight⟩
    else if s.val = 58 ∨ s.val = 61 then some ⟨.black, .bishop⟩
    else if s.val = 59 then some ⟨.black, .queen⟩
    else some ⟨.black, .king⟩

/-- `impl Default for Board`: the hard-coded starting bitboards, the king
squares `[Square::new(4), Square::new(52)]`, and the default mailbox. -/
def default : Board where
  colors := fun i => if i = 0 then 0x000000000000FFFF else 0xFFFF000000000000
  roles := fun i =>
    if i = 0 then 0x00FF00000000FF00
    else if i = 1 then 0x4200000000000042
    else if i = 2 then 0x2400000000000024
    else if i = 3 then 0x8100000000000081
    else 0x0800000000000008
  kings := fun i => if i = 0 then (4 : Fin 64) else (52 : Fin 64)
  pieces := defaultMailbox

/-- `Board::get` (release behavior): the mailbox lookup. -/
def get (b : Board) (s : Square) : Option Piece := b.pieces s

/-- `Board::all`: `colors[White] | colors[Black]`. -/
def all (b : Board) : Bitboard := b.colors 0 ||| b.colors 1

/-- `Board::place` from `src/position/board.rs`. -/
def place (b : Board) (s : Square) (p : Piece) : Board × Bool :=
  match b.pieces s, p.role.pieceIdx with
  | some _, _ => (b, false)
  | none, none =>
    let c := p.color.idx
    let old_s := b.kings c
    let colors1 := Function.update b.colors c (Bitboard.remove (b.colors c) old_s)
    let pieces1 := Function.update b.pieces old_s none
    let kings2 := Function.update b.kings c s
    let colors2 := Function.update colors1 c (Bitboard.insert (colors1 c) s)
    let pieces2 := Function.update pieces1 s (some p)
    ({ colors := colors2, roles := b.roles, kings := kings2, pieces := pieces2 }, true)
  | none, some ri =>
    let c := p.color.idx
    ({ b with
        colors := Function.update b.colors c (Bitboard.insert (b.colors c) s)
        roles := Function.update b.roles ri (Bitboard.insert (b.roles ri) s)
        pieces := Function.update b.pieces s (some p) }, true)

/-- `Board::replace` (release behavior): unconditionally inserts the new
piece's color/role bits and overwrites the mailbox, returning the previous
occupant. A king argument would index `roles[5]` out of bounds (`none`). -/
def replace (b : Board) (s : Square) (p : Piece) : Option (Board × Option Piece) :=
  match p.role.pieceIdx with
  | none => none
  | some ri =>
    let captured := b.pieces s
    some ({ b with
        colors := Function.update b.colors p.color.idx
          (Bitboard.insert (b.colors p.color.idx) s)
        roles := Function.update b.roles ri (Bitboard.insert (b.roles ri) s)
        pieces := Function.update b.pieces s (some p) }, captured)

/-- `Board::move` (release behavior): an empty `s_from` (`unwrap` on `None`)
or a king mover/captured piece (`roles[5]` out of bounds) panics, modelled
as `none`; otherwise the mover's bits move from `s_from` to `s_to` and the
captured piece's color/role bits at `s_to` are cleared. -/
def move (b : Board) (s_from s_to : Square) : Option (Board × Option Piece) :=
  match b.pieces s_from with
  | none => none
  | some capturer =>
    match capturer.role.pieceIdx with
    | none => none
    | some ri =>
      let captured := b.pieces s_to
      let colors1 := Function.update b.colors capturer.color.idx
        (Bitboard.remove (b.colors capturer.color.idx) s_from)
      let roles1 := Function.update b.roles ri (Bitboard.remove (b.roles ri) s_from)
      let pieces1 := Function.update b.pieces s_from none
      let colors2 := Function.update colors1 capturer.color.idx
        (Bitboard.insert (colors1 capturer.color.idx) s_to)
      let roles2 := Function.update roles1 ri (Bitboard.insert (roles1 ri) s_to)
      let pieces2 := Function.update pieces1 s_to (some capturer)
      match captured with
      | none =>
        some ({ colors := colors2, roles := roles2, kings := b.kings,
                pieces := pieces2 }, none)
      | some cap =>
        match cap.role.pieceIdx with
        | none => none
        | some ci =>
          let colors3 := Function.update colors2 cap.color.idx
            (Bitboard.remove (colors2 cap.color.idx) s_to)
          let roles3 := Function.update roles2 ci (Bitboard.remove (roles2 ci) s_to)
          some ({ colors := colors3, roles := roles3, kings := b.kings,
                  pieces := pieces2 }, some cap)

/-- `Board::king_move` (release behavior): a captured king would index
`roles[5]` out of bounds, modelled as `none`. -/
def king_move (b : Board) (c : Color) (s_to : Square) : Option (Board × Option Piece) :=
  let ci := c.idx
  let s_from := b.kings ci
  let captured := b.pieces s_to
  let colors1 := Function.update b.colors ci (Bitboard.remove (b.colors ci) s_from)
  let pieces1 := Function.update b.pieces s_from none
  let colors2 := Function.update colors1 ci (Bitboard.insert (colors1 ci) s_to)
  let pieces2 := Function.update pieces1 s_to (some ⟨c, .king⟩)
  let kings2 := Function.update b.kings ci s_to
  match captured with
  | none =>
    some ({ colors := colors2, roles := b.roles, kings := kings2,
            pieces := pieces2 }, none)
  | some cap =>
    match cap.role.pieceIdx with
    | none => none
    | some cri =>
      let colors3 := Function.update colors2 cap.color.idx
        (Bitboard.remove (colors2 cap.color.idx) s_to)
      let roles3 := Function.update b.roles cri (Bitboard.remove (b.roles cri) s_to)
      some ({ colors := colors3, roles := roles3, kings := kings2,
              pieces := pieces2 }, some cap)

/-- `impl Flippable for Board` together with `impl Flippable for Mailbox`:
every bitboard is bit-reversed, both king squares are point-reflected, and
the mailbox is reversed end-to-end. -/
def flipped (b : Board) : Board where
  colors := fun i => Bitboard.flipped (b.colors i)
  roles := fun i => Bitboard.flipped (b.roles i)
  kings := fun i => Square.flipped (b.kings i)
  pieces := fun s => b.pieces (Square.flipped s)

end Board

/-- All 64 squares in ascending order. -/
def squareList : List Square := List.finRange 64

/-- Condition (d) of the spec invariant at one square: the mailbox entry
agrees exactly with the color-bitboard, role-bitboard and king-square
membership of the square. -/
def Board.sqOk (b : Board) (s : Square) : Bool :=
  match b.pieces s with
  | none =>
    !(b.colors 0).contains s && !(b.colors 1).contains s &&
    ((List.finRange 5).all fun i => !(b.roles i).contains s) &&
    b.kings 0 != s && b.kings 1 != s
  | some p =>
    let c := p.color.idx
    (b.colors c).contains s && !(b.colors (1 - c)).contains s &&
    (match p.role.pieceIdx with
     | none =>
       b.kings c == s && b.kings (1 - c) != s &&
       ((List.finRange 5).all fun i => !(b.roles i).contains s)
     | some ri =>
       (b.roles ri).contains s &&
       ((List.finRange 5).all fun i => i == ri || !(b.roles i).contains s) &&
       b.kings 0 != s && b.kings 1 != s)

/-- The representation invariant of §3 of the spec, as a decidable check:
(bounds) each stored bitboard is a well-formed `u64` value;
(a) the color bitboards are disjoint; (b) the role bitboards are pairwise
disjoint; (c) the king squares differ; (d) every square's mailbox entry
agrees exactly with the color-bitboard, role-bitboard, and king-square
membership of that square. -/
def Board.checkInv (b : Board) : Bool :=
  (List.finRange 2).all (fun i => b.colors i < 2 ^ 64) &&
  (List.finRange 5).all (fun i => b.roles i < 2 ^ 64) &&
  (b.colors 0 &&& b.colors 1 == 0) &&
  ((List.finRange 5).all fun i => (List.finRange 5).all fun j =>
    i == j || (b.roles i &&& b.roles j == 0)) &&
  (b.kings 0 != b.kings 1) &&
  squareList.all b.sqOk

/-- `CastlingSide` from `src/position/castling.rs`. -/
inductive CastlingSide where
  | kingside
  | queenside
deriving DecidableEq

/-- `CastlingRights(bool, bool)` from `src/position/castling.rs`. -/
structure CastlingRights where
  ks : Bool
  qs : Bool
deriving DecidableEq

/-- `CastlingRights::can_castle`. -/
def CastlingRights.can_castle (cr : CastlingRights) : CastlingSide → Bool
  | .kingside => cr.ks
  | .queenside => cr.qs

/-- `Castling(CastlingRights, CastlingRights)` from `src/position/castling.rs`. -/
structure Castling where
  white : CastlingRights
  black : CastlingRights
deriving DecidableEq

/-- `Castling::get`. -/
def Castling.get (ca : Castling) : Color → CastlingRights
  | .white => ca.white
  | .black => ca.black

/-- `Castling::remove` from `src/position/castling.rs`. The Rust body is
`let rights = &mut match (c, cs) { ... }; *rights = false;`: the `match`
copies the `bool` out of the struct, `&mut` borrows that temporary, and the
write lands on the temporary, so the struct itself is returned unchanged. -/
def Castling.remove (ca : Castling) (c : Color) (cs : CastlingSide) : Castling :=
  let rights :=
    match c, cs with
    | .white, .kingside => ca.white.ks
    | .white, .queenside => ca.white.qs
    | .black, .kingside => ca.black.ks
    | .black, .queenside => ca.black.qs
  let rights := false
  ca

/-- The state threading of `<ZobristHasher as Hasher>::write` on a
little-endian target (`src/position/zobrist.rs`): per byte the shift
amount is updated to `(shamt + 1) & 8` and the byte is XORed in at bit
offset `shamt * 8`. -/
def zwriteGo : Nat → Nat → List Nat → Nat
  | _, state, [] => state
  | shamt, state, byte :: rest =>
    let sh := (shamt + 1) &&& 8
    zwriteGo sh (state ^^^ (byte <<< (sh * 8))) rest

/-- One call of `ZobristHasher::write` (little-endian branch): `shamt`
starts at 0 and the bytes are folded into the state. -/
def zwrite (state : Nat) (bytes : List Nat) : Nat := zwriteGo 0 state bytes

/-- `ZobristHasher::new`: internal state 0. -/
def znew : Nat := 0

/-- `ZobristHasher::finish`: returns the internal state. -/
def zfinish (state : Nat) : Nat := state

/-- The `as usize` discriminant of a `Role` (0..5, king included), indexing
`Board::ZOBRIST_PRNS[s][c][r]`. -/
def Role.idx : Role → Fin 6
  | .pawn => 0
  | .knight => 1
  | .bishop => 2
  | .rook => 3
  | .queen => 4
  | .king => 5

/-- `u64::to_ne_bytes` on a little-endian target: the eight bytes of a
64-bit value, least significant first (as fed to `Hasher::write_u64`). -/
def leBytes64 (x : Nat) : List Nat :=
  [x % 256, x / 2 ^ 8 % 256, x / 2 ^ 16 % 256, x / 2 ^ 24 % 256,
   x / 2 ^ 32 % 256, x / 2 ^ 40 % 256, x / 2 ^ 48 % 256, x / 2 ^ 56 % 256]

/-- Modelled from the spec: `Board::iter_pieces` (used by
`impl Hash for Board` in `src/position/zobrist.rs` but not defined under
`src/`) iterates the mailbox entries square by square, like
`Mailbox::into_iter`.  `impl Hash for Board` then calls
`state.write_u64(ZOBRIST_PRNS[s][c][r])` for every occupied square, and the
hash is read back with `finish`.  The Zobrist constants are compile-time
random (`const_random!`), so they are a parameter `prns` here. -/
def hashBoard (prns : Square → Fin 2 → Fin 6 → Nat) (b : Board) : Nat :=
  zfinish (squareList.foldl
    (fun state s =>
      match b.pieces s with
      | some p => zwrite state (leBytes64 (prns s p.color.idx p.role.idx))
      | none => state)
    znew)

/-- The contribution of one 64-bit Zobrist constant to the hasher state:
its eight little-endian bytes XORed together (all land in the low byte). -/
def fold8 (x : Nat) : Nat := zwrite 0 (leBytes64 x)

/-! ### Basic bit-level lemmas about the bitboard operations -/

theorem two_pow_and_eq (i : Nat) (b : Nat) :
    2 ^ i &&& b = if b.testBit i then 2 ^ i else 0 := by
  apply Nat.eq_of_testBit_eq
  intro j
  rw [Nat.testBit_and, Nat.testBit_two_pow]
  by_cases hij : i = j
  · subst hij
    cases h : b.testBit i <;> simp [h]
  · cases h : b.testBit i <;> simp [hij, Nat.testBit_two_pow, h]

theorem Bitboard.contains_eq_testBit (b : Bitboard) (s : Square) :
    b.contains s = b.testBit s.val := by
  unfold Bitboard.contains Bitboard.square
  rw [Nat.one_shiftLeft, two_pow_and_eq]
  cases h : b.testBit s.val <;>
    simp [h, (Nat.two_pow_pos s.val).ne']

theorem Bitboard.testBit_insert (b : Bitboard) (s : Square) (i : Nat) :
    (b.insert s).testBit i = (b.testBit i || i == s.val) := by
  unfold Bitboard.insert
  rw [Nat.one_shiftLeft, Nat.testBit_or, Nat.testBit_two_pow]
  cases h : b.testBit i <;> by_cases hi : s.val = i <;>
    simp [h, hi, Nat.testBit_two_pow] <;> omega

theorem Bitboard.testBit_remove (b : Bitboard) (s : Square) (i : Nat)
    (hb : b < 2 ^ 64) :
    (b.remove s).testBit i = (b.testBit i && !(i == s.val)) := by
  unfold Bitboard.remove
  rw [Nat.one_shiftLeft, Nat.testBit_and, Nat.testBit_xor,
    Nat.testBit_two_pow_sub_one, Nat.testBit_two_pow]
  by_cases hi : i < 64
  · by_cases hsi : s.val = i <;> cases h : b.testBit i <;> simp [hi, hsi] <;> omega
  · have : b.testBit i = false := Nat.testBit_lt_two_pow (by
      calc b < 2 ^ 64 := hb
        _ ≤ 2 ^ i := Nat.pow_le_pow_right (by omega) (by omega))
    have hsv : s.val ≠ i := by omega
    simp [this, hi, hsv]

theorem Bitboard.insert_lt (b : Bitboard) (s : Square) (hb : b < 2 ^ 64) :
    b.insert s < 2 ^ 64 := by
  unfold Bitboard.insert
  exact Nat.or_lt_two_pow hb (by
    rw [Nat.one_shiftLeft]
    exact Nat.pow_lt_pow_right (by omega) s.isLt)

theorem Bitboard.remove_lt (b : Bitboard) (s : Square) (hb : b < 2 ^ 64) :
    b.remove s < 2 ^ 64 :=
  Nat.lt_of_le_of_lt Nat.and_le_left hb

/-! ### Bit reversal (`u64::reverse_bits`) -/

theorem Bitboard.revAux_split (n : Nat) : ∀ (x acc : Nat),
    Bitboard.revAux n x acc = acc * 2 ^ n + Bitboard.revAux n x 0 := by
  induction n with
  | zero => intro x acc; simp [Bitboard.revAux]
  | succ n ih =>
    intro x acc
    rw [Bitboard.revAux, Bitboard.revAux, ih (x / 2), ih (x / 2) (2 * 0 + x % 2)]
    ring

theorem Bitboard.revAux_lt (n : Nat) : ∀ (x : Nat), Bitboard.revAux n x 0 < 2 ^ n := by
  induction n with
  | zero => intro x; simp [Bitboard.revAux]
  | succ n ih =>
    intro x
    rw [Bitboard.revAux, Bitboard.revAux_split]
    have h1 := ih (x / 2)
    have h2 : x % 2 < 2 := Nat.mod_lt x (by omega)
    calc (2 * 0 + x % 2) * 2 ^ n + Bitboard.revAux n (x / 2) 0
        < (2 * 0 + x % 2) * 2 ^ n + 2 ^ n := by omega
      _ ≤ 2 ^ n + 2 ^ n := by
          have : (2 * 0 + x % 2) * 2 ^ n ≤ 1 * 2 ^ n :=
            Nat.mul_le_mul_right _ (by omega)
          omega
      _ = 2 ^ (n + 1) := by ring

theorem Bitboard.testBit_revAux (n : Nat) : ∀ (x : Nat) (i : Nat),
    (Bitboard.revAux n x 0).testBit i =
      if i < n then x.testBit (n - 1 - i) else false := by
  induction n with
  | zero => intro x i; simp [Bitboard.revAux]
  | succ n ih =>
    intro x i
    rw [Bitboard.revAux, Bitboard.revAux_split]
    have hlt := Bitboard.revAux_lt n (x / 2)
    have hmul : (2 * 0 + x % 2) * 2 ^ n = 2 ^ n * (x % 2) := by ring
    rw [hmul, Nat.testBit_mul_pow_two_add _ hlt]
    rcases Nat.lt_trichotomy i n with h | h | h
    · rw [if_pos h, if_pos (by omega), ih]
      rw [if_pos h, Nat.testBit_div_two]
      congr 1
      omega
    · subst h
      rw [if_neg (by omega), Nat.sub_self, if_pos (by omega)]
      have h0 : i + 1 - 1 - i = 0 := by omega
      rw [h0, Nat.testBit_zero, Nat.testBit_zero,
        Nat.mod_mod_of_dvd x (dvd_refl 2)]
    · rw [if_neg (by omega), if_neg (by omega)]
      apply Nat.testBit_lt_two_pow
      calc x % 2 < 2 ^ 1 := by omega
        _ ≤ 2 ^ (i - n) := Nat.pow_le_pow_right (by omega) (by omega)

theorem Bitboard.rev64_lt (x : Nat) : Bitboard.rev64 x < 2 ^ 64 :=
  Bitboard.revAux_lt 64 x

theorem Bitboard.testBit_rev64 (x i : Nat) :
    (Bitboard.rev64 x).testBit i = if i < 64 then x.testBit (63 - i) else false :=
  Bitboard.testBit_revAux 64 x i

theorem Bitboard.rev64_rev64 (x : Nat) (hx : x < 2 ^ 64) :
    Bitboard.rev64 (Bitboard.rev64 x) = x := by
  apply Nat.eq_of_testBit_eq
  intro i
  rw [Bitboard.testBit_rev64]
  by_cases hi : i < 64
  · rw [if_pos hi, Bitboard.testBit_rev64, if_pos (by omega)]
    congr 1
    omega
  · rw [if_neg hi]
    exact (Nat.testBit_lt_two_pow (by
      calc x < 2 ^ 64 := hx
        _ ≤ 2 ^ i := Nat.pow_le_pow_right (by omega) (by omega))).symm

theorem Bitboard.count_rev64 (x : Nat) (hx : x < 2 ^ 64) :
    Bitboard.count (Bitboard.rev64 x) = Bitboard.count x := by
  unfold Bitboard.count
  have hmap : (List.range 64).reverse.map (fun i => 63 - i) = List.range 64 := by
    decide
  conv_lhs => rw [← hmap]
  rw [List.countP_map, List.countP_reverse]
  apply List.countP_congr
  intro i hi
  simp only [List.mem_range] at hi
  simp only [Function.comp_apply, Bitboard.testBit_rev64,
    if_pos (show 63 - i < 64 by omega)]
  have h63 : 63 - (63 - i) = i := by omega
  rw [h63]

/-! ### Zobrist hasher state lemmas -/

theorem zwriteGo_zero_eq (bytes : List Nat) : ∀ (state : Nat),
    zwriteGo 0 state bytes = bytes.foldl (fun st byte => st ^^^ byte) state := by
  induction bytes with
  | nil => intro state; rfl
  | cons b rest ih =>
    intro state
    have h : (0 + 1) &&& 8 = 0 := by decide
    simp only [zwriteGo, h, Nat.zero_mul, Nat.shiftLeft_zero, List.foldl_cons]
    exact ih _

theorem zwrite_eq_foldl (state : Nat) (bytes : List Nat) :
    zwrite state bytes = bytes.foldl (fun st byte => st ^^^ byte) state :=
  zwriteGo_zero_eq bytes state

theorem foldl_xor_lt (bytes : List Nat) : ∀ (state : Nat), state < 256 →
    (∀ b ∈ bytes, b < 256) →
    bytes.foldl (fun st byte => st ^^^ byte) state < 256 := by
  induction bytes with
  | nil => intro state h _; exact h
  | cons b rest ih =>
    intro state h hb
    simp only [List.foldl_cons]
    exact ih _ (Nat.xor_lt_two_pow (n := 8) h (hb b (by simp)))
      (fun x hx => hb x (by simp [hx]))

theorem foldl_zwrite_lt (chunks : List (List Nat)) : ∀ (state : Nat),
    state < 256 → (∀ ch ∈ chunks, ∀ byte ∈ ch, byte < 256) →
    List.foldl zwrite state chunks < 256 := by
  induction chunks with
  | nil => intro state h _; exact h
  | cons ch rest ih =>
    intro state h hb
    simp only [List.foldl_cons]
    refine ih _ ?_ (fun c hc x hx => hb c (by simp [hc]) x hx)
    rw [zwrite_eq_foldl]
    exact foldl_xor_lt ch state h (hb ch (by simp))

/-! ### Extraction lemmas for the representation invariant -/

theorem Board.checkInv_colors_lt {b : Board} (h : b.checkInv = true) :
    ∀ i, b.colors i < 2 ^ 64 := by
  unfold Board.checkInv at h
  simp only [Bool.and_eq_true, List.all_eq_true, decide_eq_true_eq] at h
  intro i
  exact h.1.1.1.1.1 i (List.mem_finRange i)

theorem Board.checkInv_roles_lt {b : Board} (h : b.checkInv = true) :
    ∀ i, b.roles i < 2 ^ 64 := by
  unfold Board.checkInv at h
  simp only [Bool.and_eq_true, List.all_eq_true, decide_eq_true_eq] at h
  intro i
  exact h.1.1.1.1.2 i (List.mem_finRange i)

theorem Board.checkInv_sqOk {b : Board} (h : b.checkInv = true) (s : Square) :
    b.sqOk s = true := by
  unfold Board.checkInv at h
  simp only [Bool.and_eq_true, List.all_eq_true] at h
  exact h.2 s (by simp [squareList, List.mem_finRange])

theorem Board.inv_none {b : Board} (h : b.checkInv = true) {s : Square}
    (hs : b.pieces s = none) :
    (∀ i, (b.colors i).contains s = false) ∧
    (∀ i, (b.roles i).contains s = false) ∧
    (∀ i, b.kings i ≠ s) := by
  have hq := Board.checkInv_sqOk h s
  unfold Board.sqOk at hq
  rw [hs] at hq
  simp only [Bool.and_eq_true, Bool.not_eq_true', List.all_eq_true,
    bne_iff_ne] at hq
  obtain ⟨⟨⟨⟨h1, h2⟩, h3⟩, h4⟩, h5⟩ := hq
  refine ⟨fun i => ?_, fun i => h3 i (List.mem_finRange i), fun i => ?_⟩
  · fin_cases i <;> assumption
  · fin_cases i <;> assumption

theorem Board.inv_king {b : Board} (h : b.checkInv = true) {s : Square}
    {c : Color} (hs : b.pieces s = some ⟨c, .king⟩) :
    (b.colors c.idx).contains s = true ∧
    (b.colors (1 - c.idx)).contains s = false ∧
    b.kings c.idx = s ∧ b.kings (1 - c.idx) ≠ s ∧
    (∀ i, (b.roles i).contains s = false) := by
  have hq := Board.checkInv_sqOk h s
  unfold Board.sqOk at hq
  rw [hs] at hq
  simp only [Role.pieceIdx, Bool.and_eq_true, Bool.not_eq_true', List.all_eq_true,
    bne_iff_ne, beq_iff_eq] at hq
  exact ⟨hq.1.1, hq.1.2, hq.2.1.1, hq.2.1.2, fun i => hq.2.2 i (List.mem_finRange i)⟩

theorem Board.inv_nonking {b : Board} (h : b.checkInv = true) {s : Square}
    {p : Piece} {ri : Fin 5} (hs : b.pieces s = some p)
    (hri : p.role.pieceIdx = some ri) :
    (b.colors p.color.idx).contains s = true ∧
    (b.colors (1 - p.color.idx)).contains s = false ∧
    (b.roles ri).contains s = true ∧
    (∀ i, i ≠ ri → (b.roles i).contains s = false) ∧
    (∀ i, b.kings i ≠ s) := by
  have hq := Board.checkInv_sqOk h s
  unfold Board.sqOk at hq
  rw [hs] at hq
  simp only [hri, Bool.and_eq_true, Bool.not_eq_true', List.all_eq_true, bne_iff_ne,
    Bool.or_eq_true, beq_iff_eq] at hq
  obtain ⟨⟨hc1, hc2⟩, ⟨⟨hr1, hr2⟩, hk1⟩, hk2⟩ := hq
  refine ⟨hc1, hc2, hr1, fun i hi => ?_, fun i => ?_⟩
  · rcases hr2 i (List.mem_finRange i) with h' | h'
    · exact absurd h' hi
    · exact h'
  · fin_cases i <;> assumption

theorem Role.pieceIdx_eq_none {r : Role} (h : r.pieceIdx = none) : r = .king := by
  cases r <;> simp [Role.pieceIdx] at h ⊢

theorem Role.pieceIdx_isSome {r : Role} (h : r ≠ .king) :
    ∃ ri, r.pieceIdx = some ri := by
  cases r <;> simp [Role.pieceIdx] <;> exact absurd rfl h

theorem Color.idx_injective {c1 c2 : Color} (h : c1.idx = c2.idx) : c1 = c2 := by
  cases c1 <;> cases c2 <;> simp_all [Color.idx]

theorem Color.one_sub_idx (c : Color) : ∀ i : Fin 2, i ≠ c.idx → i = 1 - c.idx := by
  cases c <;> decide

theorem Role.pieceIdx_injective {r1 r2 : Role} {i : Fin 5}
    (h1 : r1.pieceIdx = some i) (h2 : r2.pieceIdx = some i) : r1 = r2 := by
  cases r1 <;> cases r2 <;> simp_all [Role.pieceIdx] <;> omega

/-- On an invariant-satisfying board the stored king square of each color
really holds that color's king in the mailbox. -/
theorem Board.inv_king_square {b : Board} (h : b.checkInv = true) (c : Color) :
    b.pieces (b.kings c.idx) = some ⟨c, .king⟩ := by
  cases hp : b.pieces (b.kings c.idx) with
  | none =>
    exact absurd rfl ((Board.inv_none h hp).2.2 c.idx)
  | some p =>
    cases hip : p.role.pieceIdx with
    | some ri =>
      exact absurd rfl ((Board.inv_nonking h hp hip).2.2.2.2 c.idx)
    | none =>
      have hk : p.role = .king := Role.pieceIdx_eq_none hip
      have hpe : p = ⟨p.color, .king⟩ := by cases p; simp_all
      have hpk : b.pieces (b.kings c.idx) = some ⟨p.color, .king⟩ := by
        rw [hp]; exact congrArg some hpe
      have hking := Board.inv_king h hpk
      by_cases hcc : p.color.idx = c.idx
      · have hc2 : p.color = c := Color.idx_injective hcc
        obtain ⟨pc, pr⟩ := p
        simp_all
      · have h1 : c.idx = 1 - p.color.idx :=
          Color.one_sub_idx p.color c.idx (fun hh => hcc hh.symm)
        rw [← h1] at hking
        exact absurd rfl hking.2.2.2.1

/-! ### Claim theorems -/

/-- C4: for every `Castling` value, color, and side, `Castling::remove`
leaves the value unchanged — the Rust assignment writes through a mutable
reference to a temporary copy of the flag — so all four `can_castle`
answers are identical before and after the call. -/
theorem C4_castling_remove_is_noop :
    ∀ (ca : Castling) (c : Color) (cs : CastlingSide),
      ca.remove c cs = ca ∧
      ∀ (c' : Color) (cs' : CastlingSide),
        ((ca.remove c cs).get c').can_castle cs' = (ca.get c').can_castle cs' :=
  fun _ _ _ => ⟨rfl, fun _ _ => rfl⟩

/-- C3: on a little-endian target the `ZobristHasher` shift amount
`(shamt + 1) & 8` is always 0, so every written byte is XORed into the
lowest byte only (`write` is a plain byte-XOR fold), the internal state
stays below 256 through any sequence of `write` calls starting from
`new()`, and `finish()` therefore returns a value below 256. -/
theorem C3_zobrist_state_stays_below_256 :
    ∀ (chunks : List (List Nat)),
      (∀ ch ∈ chunks, ∀ byte ∈ ch, byte < 256) →
      (∀ (state : Nat) (bytes : List Nat),
        zwrite state bytes = bytes.foldl (fun st byte => st ^^^ byte) state) ∧
      (∀ pre suf, chunks = pre ++ suf → List.foldl zwrite znew pre < 256) ∧
      zfinish (List.foldl zwrite znew chunks) < 256 := by
  intro chunks h
  refine ⟨zwrite_eq_foldl, ?_, ?_⟩
  · intro pre suf hps
    exact foldl_zwrite_lt pre znew (by decide)
      (fun c hc x hx => h c (by rw [hps]; exact List.mem_append_left _ hc) x hx)
  · exact foldl_zwrite_lt chunks znew (by decide) h

/-- Witness for C3 at a concrete sequence of `write` calls. -/
theorem C3_witness :
    zfinish (List.foldl zwrite znew [[171, 205, 3], [7, 255]]) < 256 :=
  (C3_zobrist_state_stays_below_256 [[171, 205, 3], [7, 255]] (by decide)).2.2

/-- A board with a white pawn on a1 (square 0) besides the two kings. -/
def c1Board : Board := (Board.new.place 0 ⟨.white, .pawn⟩).1

/-- C1 (code bug): `Board::replace` inserts the new piece's color/role bits
but never clears the replaced piece's bits, so replacing an occupied square
violates the representation invariants.  Concretely: a board with a white
pawn on square 0 satisfies the invariants, the documented preconditions of
`replace` hold (neither the replaced pawn nor the replacing knight is a
king), yet after `replace(0, white knight)` the invariant check fails (the
pawn and knight role bitboards overlap on square 0). -/
theorem C1_replace_breaks_invariant :
    Board.checkInv c1Board = true ∧
    c1Board.get 0 = some ⟨.white, .pawn⟩ ∧
    (Piece.mk .white .knight).role ≠ .king ∧
    (Piece.mk .white .pawn).role ≠ .king ∧
    (c1Board.replace 0 ⟨.white, .knight⟩).map
      (fun r => (Board.checkInv r.1, r.2)) = some (false, some ⟨.white, .pawn⟩) := by
  decide

/-- C2 (code bug): in the default starting `Board` the per-side piece
counts are as claimed (8 pawns, 2 knights, 2 bishops, 2 rooks, 1 queen,
1 king per side) and `all()` is exactly ranks 1, 2, 7, 8 with ranks 3–6
empty — but the stored king squares do NOT agree with the mailbox and
bitboards: `kings[Black]` is square 52 (e7, which the mailbox says holds a
black pawn) while the mailbox puts the black king on square 60 (e8), and
the invariant check fails on the default board. -/
theorem C2_default_board_king_square_mismatch :
    Bitboard.count (Board.default.colors 0 &&& Board.default.roles 0) = 8 ∧
    Bitboard.count (Board.default.colors 1 &&& Board.default.roles 0) = 8 ∧
    Bitboard.count (Board.default.colors 0 &&& Board.default.roles 1) = 2 ∧
    Bitboard.count (Board.default.colors 1 &&& Board.default.roles 1) = 2 ∧
    Bitboard.count (Board.default.colors 0 &&& Board.default.roles 2) = 2 ∧
    Bitboard.count (Board.default.colors 1 &&& Board.default.roles 2) = 2 ∧
    Bitboard.count (Board.default.colors 0 &&& Board.default.roles 3) = 2 ∧
    Bitboard.count (Board.default.colors 1 &&& Board.default.roles 3) = 2 ∧
    Bitboard.count (Board.default.colors 0 &&& Board.default.roles 4) = 1 ∧
    Bitboard.count (Board.default.colors 1 &&& Board.default.roles 4) = 1 ∧
    squareList.countP (fun s => Board.default.pieces s == some ⟨.white, .king⟩) = 1 ∧
    squareList.countP (fun s => Board.default.pieces s == some ⟨.black, .king⟩) = 1 ∧
    Board.default.all = 0xFFFF00000000FFFF ∧
    (∀ s : Square, Board.default.all.contains s =
      decide (s.val / 8 = 0 ∨ s.val / 8 = 1 ∨ s.val / 8 = 6 ∨ s.val / 8 = 7)) ∧
    (∀ s : Square, 16 ≤ s.val → s.val ≤ 47 → Board.default.pieces s = none) ∧
    Board.default.pieces 60 = some ⟨.black, .king⟩ ∧
    Board.default.kings 1 = (52 : Fin 64) ∧
    Board.default.pieces 52 = some ⟨.black, .pawn⟩ ∧
    Board.default.checkInv = false := by
  decide

/-- `Square::flipped` is an involution. -/
theorem Square.flipped_flipped (s : Square) : s.flipped.flipped = s := by
  unfold Square.flipped
  apply Fin.ext
  show 63 - (63 - s.val) = s.val
  omega

/-- C9: flipping a board twice gives back the original board, and flipping
preserves the population count of every color and role bitboard while
reversing the mailbox end-to-end. -/
theorem C9_flipped_involution (b : Board)
    (hc : ∀ i, b.colors i < 2 ^ 64) (hr : ∀ i, b.roles i < 2 ^ 64) :
    b.flipped.flipped = b ∧
    (∀ i, Bitboard.count (b.flipped.colors i) = Bitboard.count (b.colors i)) ∧
    (∀ i, Bitboard.count (b.flipped.roles i) = Bitboard.count (b.roles i)) ∧
    (∀ s : Square, b.flipped.pieces s = b.pieces s.flipped) := by
  refine ⟨?_, ?_, ?_, fun s => rfl⟩
  · cases b with
    | mk colors roles kings pieces =>
      unfold Board.flipped
      simp only [Board.mk.injEq]
      refine ⟨funext fun i => ?_, funext fun i => ?_, funext fun i => ?_,
        funext fun s => ?_⟩
      · exact Bitboard.rev64_rev64 _ (hc i)
      · exact Bitboard.rev64_rev64 _ (hr i)
      · exact Square.flipped_flipped _
      · rw [Square.flipped_flipped]
  · intro i
    exact Bitboard.count_rev64 _ (hc i)
  · intro i
    exact Bitboard.count_rev64 _ (hr i)

/-- Witness for C9 at the concrete board `Board::new()`. -/
theorem C9_witness : Board.new.flipped.flipped = Board.new :=
  (C9_flipped_involution Board.new (by decide) (by decide)).1

theorem Bitboard.contains_insert_self (b : Bitboard) (s : Square) :
    (b.insert s).contains s = true := by
  rw [Bitboard.contains_eq_testBit, Bitboard.testBit_insert]
  simp

theorem Bitboard.contains_insert_of_ne (b : Bitboard) {s t : Square} (h : t ≠ s) :
    (b.insert s).contains t = b.contains t := by
  rw [Bitboard.contains_eq_testBit, Bitboard.testBit_insert,
    Bitboard.contains_eq_testBit]
  have : t.val ≠ s.val := fun hh => h (Fin.ext hh)
  simp [this]

theorem Bitboard.contains_remove_self (b : Bitboard) (s : Square)
    (hb : b < 2 ^ 64) : (b.remove s).contains s = false := by
  rw [Bitboard.contains_eq_testBit, Bitboard.testBit_remove _ _ _ hb]
  simp

theorem Bitboard.contains_remove_of_ne (b : Bitboard) {s t : Square}
    (hb : b < 2 ^ 64) (h : t ≠ s) : (b.remove s).contains t = b.contains t := by
  rw [Bitboard.contains_eq_testBit, Bitboard.testBit_remove _ _ _ hb,
    Bitboard.contains_eq_testBit]
  have : t.val ≠ s.val := fun hh => h (Fin.ext hh)
  simp [this]

/-- C6: `Board::place` returns `false` and leaves the board unchanged when
the square is occupied; places a non-king piece on an empty square and
returns `true`; and for a king on an empty square it relocates that color's
existing king (the invariant hypothesis identifies the existing king): the
new king square is `s`, the old king square is emptied, and no second king
of that color exists afterwards. -/
theorem C6_place (b : Board) (s : Square) (p : Piece) :
    ((∃ q, b.pieces s = some q) → b.place s p = (b, false)) ∧
    (b.pieces s = none → p.role ≠ .king →
      (b.place s p).2 = true ∧ (b.place s p).1.get s = some p) ∧
    (b.checkInv = true → b.pieces s = none → p.role = .king →
      (b.place s p).2 = true ∧
      (b.place s p).1.kings p.color.idx = s ∧
      (b.place s p).1.get s = some p ∧
      (b.place s p).1.get (b.kings p.color.idx) = none ∧
      ∀ t : Square, (b.place s p).1.get t = some ⟨p.color, .king⟩ → t = s) := by
  refine ⟨?_, ?_, ?_⟩
  · rintro ⟨q, hq⟩
    simp [Board.place, hq]
  · intro hs hk
    obtain ⟨ri, hri⟩ := Role.pieceIdx_isSome hk
    simp [Board.place, Board.get, hs, hri, Function.update_same]
  · intro hinv hs hk
    have hip : p.role.pieceIdx = none := by rw [hk]; rfl
    have hold : b.pieces (b.kings p.color.idx) = some ⟨p.color, .king⟩ :=
      Board.inv_king_square hinv p.color
    have hne : b.kings p.color.idx ≠ s := by
      intro he
      rw [he, hs] at hold
      exact Option.noConfusion hold
    simp only [Board.place, hs, hip, Board.get]
    refine ⟨trivial, Function.update_same _ _ _, ?_, ?_, ?_⟩
    · rw [Function.update_same]
    · rw [Function.update_noteq hne, Function.update_same]
    · intro t ht
      by_cases hts : t = s
      · exact hts
      · rw [Function.update_noteq hts] at ht
        by_cases hto : t = b.kings p.color.idx
        · rw [hto, Function.update_same] at ht
          exact Option.noConfusion ht
        · rw [Function.update_noteq hto] at ht
          have := (Board.inv_king hinv ht).2.2.1
          exact absurd this.symm hto

/-- Witness for C6: placing the white king on the empty square 16 of
`Board::new()` relocates it from e1. -/
theorem C6_witness :
    (Board.new.place 16 ⟨.white, .king⟩).2 = true ∧
    (Board.new.place 16 ⟨.white, .king⟩).1.kings Color.white.idx = (16 : Fin 64) ∧
    (Board.new.place 16 ⟨.white, .king⟩).1.get (Board.new.kings Color.white.idx) = none := by
  have h := (C6_place Board.new 16 ⟨.white, .king⟩).2.2 (by decide) (by decide) rfl
  exact ⟨h.1, h.2.1, h.2.2.2.1⟩

/-- A board with a white pawn on a2 (8) and a black pawn on b3 (17). -/
def c5xBoard : Board :=
  ((Board.new.place 8 ⟨.white, .pawn⟩).1.place 17 ⟨.black, .pawn⟩).1

/-- C5 counterexample: on an invariant-satisfying board, moving the white
pawn from a2 (8) onto the black pawn on b3 (17) — mover non-king,
destination not holding a king, so within the claim's stated scope —
returns the captured pawn and updates the mailbox as claimed, but the
mover is NOT left in its role bitboard at the destination: clearing the
captured pawn's role bits also clears the arriving pawn's, refuting the
claim's bitboard clause. -/
theorem C5_counterexample :
    Board.checkInv c5xBoard = true ∧
    c5xBoard.pieces 8 = some ⟨.white, .pawn⟩ ∧
    (Piece.mk .white .pawn).role ≠ .king ∧
    c5xBoard.pieces 17 = some ⟨.black, .pawn⟩ ∧
    (Piece.mk .black .pawn).role ≠ .king ∧
    (c5xBoard.move 8 17).map
      (fun r => (r.2, r.1.get 8, r.1.get 17, (r.1.roles 0).contains 17)) =
      some (some ⟨.black, .pawn⟩, none, some ⟨.white, .pawn⟩, false) := by
  decide

/-- C5 (amended): on an invariant-satisfying board, for a non-king mover on
`a` and a destination `c` that is empty or holds an opposite-color,
different-role, non-king piece, `move(a, c)` returns the old occupant of
`c`, empties `a`, puts the mover on `c` in the mailbox, removes the mover
from and inserts it into its color and role bitboards, and clears the
captured piece's color/role bitboard entries at `c`. -/
theorem C5_move_amended (b : Board) (a c : Square) (mover : Piece)
    (hinv : b.checkInv = true)
    (hma : b.pieces a = some mover)
    (hmk : mover.role ≠ .king)
    (hcap : b.pieces c = none ∨ ∃ q, b.pieces c = some q ∧ q.color ≠ mover.color ∧
      q.role ≠ mover.role ∧ q.role ≠ .king) :
    (b.move a c).map Prod.snd = some (b.pieces c) ∧
    (b.move a c).map (fun r => r.1.get a) = some none ∧
    (b.move a c).map (fun r => r.1.get c) = some (some mover) ∧
    (b.move a c).map (fun r => (r.1.colors mover.color.idx).contains c) = some true ∧
    (b.move a c).map (fun r => (r.1.colors mover.color.idx).contains a) = some false ∧
    (∀ ri, mover.role.pieceIdx = some ri →
      (b.move a c).map (fun r => (r.1.roles ri).contains c) = some true ∧
      (b.move a c).map (fun r => (r.1.roles ri).contains a) = some false) ∧
    (∀ q, b.pieces c = some q → ∀ qi, q.role.pieceIdx = some qi →
      (b.move a c).map (fun r => (r.1.colors q.color.idx).contains c) = some false ∧
      (b.move a c).map (fun r => (r.1.roles qi).contains c) = some false) := by
  obtain ⟨ri, hri⟩ := Role.pieceIdx_isSome hmk
  have hwc := Board.checkInv_colors_lt hinv
  have hwr := Board.checkInv_roles_lt hinv
  rcases hcap with hc0 | ⟨q, hq, hqc, hqr, hqk⟩
  · have hac : a ≠ c := by
      intro he
      rw [he, hc0] at hma
      exact Option.noConfusion hma
    simp only [Board.move, hma, hri, hc0, Option.map]
    refine ⟨trivial, ?_, ?_, ?_, ?_, ?_, ?_⟩
    · simp only [Board.get, Function.update_noteq hac, Function.update_same]
    · simp only [Board.get, Function.update_same]
    · rw [Function.update_same, Bitboard.contains_insert_self]
    · rw [Function.update_same,
        Bitboard.contains_insert_of_ne _ hac, Function.update_same,
        Bitboard.contains_remove_self _ _ (hwc mover.color.idx)]
    · intro ri' hri'
      have hee : ri' = ri := (Option.some_injective _ hri').symm
      subst hee
      constructor
      · rw [Function.update_same, Bitboard.contains_insert_self]
      · rw [Function.update_same,
          Bitboard.contains_insert_of_ne _ hac, Function.update_same,
          Bitboard.contains_remove_self _ _ (hwr ri')]
    · intro q hqq
      exact Option.noConfusion hqq
  · obtain ⟨qi, hqi⟩ := Role.pieceIdx_isSome hqk
    have hac : a ≠ c := by
      intro he
      rw [he, hq] at hma
      have hqm : q = mover := Option.some_injective _ (hq ▸ hma)
      exact hqc (by rw [hqm])
    have hcidx : q.color.idx ≠ mover.color.idx :=
      fun h => hqc (Color.idx_injective h)
    have hridx : qi ≠ ri := by
      intro h
      exact hqr (Role.pieceIdx_injective hqi (h ▸ hri))
    simp only [Board.move, hma, hri, hq, hqi, Option.map]
    refine ⟨trivial, ?_, ?_, ?_, ?_, ?_, ?_⟩
    · simp only [Board.get, Function.update_noteq hac, Function.update_same]
    · simp only [Board.get, Function.update_same]
    · rw [Function.update_noteq hcidx.symm, Function.update_same,
        Bitboard.contains_insert_self]
    · rw [Function.update_noteq hcidx.symm, Function.update_same,
        Bitboard.contains_insert_of_ne _ hac, Function.update_same,
        Bitboard.contains_remove_self _ _ (hwc mover.color.idx)]
    · intro ri' hri'
      have hee : ri' = ri := (Option.some_injective _ hri').symm
      subst hee
      constructor
      · rw [Function.update_noteq hridx.symm, Function.update_same,
          Bitboard.contains_insert_self]
      · rw [Function.update_noteq hridx.symm, Function.update_same,
          Bitboard.contains_insert_of_ne _ hac, Function.update_same,
          Bitboard.contains_remove_self _ _ (hwr ri')]
    · intro q' hqq qi' hqi'
      have hqe : q' = q := (Option.some_injective _ hqq).symm
      subst hqe
      have hie : qi' = qi := Option.some_injective _ (hqi'.symm.trans hqi)
      subst hie
      constructor
      · rw [Function.update_same,
          Bitboard.contains_remove_self]
        rw [Function.update_noteq hcidx, Function.update_noteq hcidx]
        exact hwc q'.color.idx
      · rw [Function.update_same,
          Bitboard.contains_remove_self]
        rw [Function.update_noteq hridx, Function.update_noteq hridx]
        exact hwr qi'

/-- Witness for C5 (amended) at a concrete capture: the white pawn on a2
takes the black knight on b3. -/
theorem C5_witness :
    (((Board.new.place 8 ⟨.white, .pawn⟩).1.place 17 ⟨.black, .knight⟩).1.move
      8 17).map Prod.snd = some (some ⟨.black, .knight⟩) := by
  have h := C5_move_amended
    ((Board.new.place 8 ⟨.white, .pawn⟩).1.place 17 ⟨.black, .knight⟩).1
    8 17 ⟨.white, .pawn⟩ (by decide) (by decide) (by decide)
    (Or.inr ⟨⟨.black, .knight⟩, by decide, by decide, by decide, by decide⟩)
  rw [h.1]
  decide

/-! ### XOR-fold machinery for the Zobrist board hash -/

/-- XOR of a per-square contribution over a list of squares. -/
def xorFold (L : List Square) (g : Square → Nat) : Nat :=
  L.foldl (fun st s => st ^^^ g s) 0

theorem foldl_xor_shift (g : Square → Nat) (L : List Square) : ∀ init : Nat,
    L.foldl (fun st s => st ^^^ g s) init = init ^^^ xorFold L g := by
  induction L with
  | nil => intro init; simp [xorFold]
  | cons h T ih =>
    intro init
    show T.foldl _ (init ^^^ g h) = init ^^^ xorFold (h :: T) g
    rw [ih (init ^^^ g h)]
    show init ^^^ g h ^^^ xorFold T g = init ^^^ T.foldl _ (0 ^^^ g h)
    rw [ih (0 ^^^ g h), Nat.zero_xor, Nat.xor_assoc]

theorem xor_mix (a b c d : Nat) : (a ^^^ b) ^^^ (c ^^^ d) = (a ^^^ c) ^^^ (b ^^^ d) := by
  rw [Nat.xor_assoc, ← Nat.xor_assoc b c d, Nat.xor_comm b c,
    Nat.xor_assoc c b d, ← Nat.xor_assoc a c (b ^^^ d)]

theorem xorFold_xor (L : List Square) (g1 g2 : Square → Nat) :
    xorFold L (fun s => g1 s ^^^ g2 s) = xorFold L g1 ^^^ xorFold L g2 := by
  induction L with
  | nil => simp [xorFold]
  | cons h T ih =>
    show T.foldl _ (0 ^^^ (g1 h ^^^ g2 h)) = _
    rw [foldl_xor_shift, Nat.zero_xor, ih]
    show (g1 h ^^^ g2 h) ^^^ (xorFold T g1 ^^^ xorFold T g2) = _
    rw [xor_mix]
    show _ = T.foldl _ (0 ^^^ g1 h) ^^^ T.foldl _ (0 ^^^ g2 h)
    rw [foldl_xor_shift, foldl_xor_shift, Nat.zero_xor, Nat.zero_xor]

theorem xorFold_zero (L : List Square) (g : Square → Nat)
    (h : ∀ s ∈ L, g s = 0) : xorFold L g = 0 := by
  induction L with
  | nil => rfl
  | cons a T ih =>
    show T.foldl _ (0 ^^^ g a) = 0
    rw [foldl_xor_shift, h a (by simp), ih (fun s hs => h s (by simp [hs]))]
    simp

theorem xorFold_single (L : List Square) (g : Square → Nat) (a : Square)
    (hnd : L.Nodup) (ha : a ∈ L) (h : ∀ s ∈ L, s ≠ a → g s = 0) :
    xorFold L g = g a := by
  induction L with
  | nil => cases ha
  | cons x T ih =>
    show T.foldl _ (0 ^^^ g x) = g a
    rw [foldl_xor_shift, Nat.zero_xor]
    by_cases hxa : x = a
    · subst hxa
      rw [xorFold_zero T g (fun s hs => h s (by simp [hs])
        (fun he => (List.nodup_cons.mp hnd).1 (he ▸ hs)))]
      simp
    · rw [h x (by simp) hxa, Nat.zero_xor]
      rcases List.mem_cons.mp ha with h' | h'
      · exact absurd h'.symm hxa
      · exact ih (List.nodup_cons.mp hnd).2 h' (fun s hs hsa => h s (by simp [hs]) hsa)

theorem xorFold_pair (L : List Square) (g : Square → Nat) (a c : Square)
    (hnd : L.Nodup) (ha : a ∈ L) (hc : c ∈ L) (hac : a ≠ c)
    (h : ∀ s ∈ L, s ≠ a → s ≠ c → g s = 0) :
    xorFold L g = g a ^^^ g c := by
  induction L with
  | nil => cases ha
  | cons x T ih =>
    obtain ⟨hx, hT⟩ := List.nodup_cons.mp hnd
    show T.foldl _ (0 ^^^ g x) = g a ^^^ g c
    rw [foldl_xor_shift, Nat.zero_xor]
    by_cases hxa : x = a
    · subst hxa
      rw [xorFold_single T g c hT
        (by rcases List.mem_cons.mp hc with h' | h'
            · exact absurd h'.symm hac
            · exact h')
        (fun s hs hsc => h s (by simp [hs]) (fun he => hx (he ▸ hs)) hsc)]
    · by_cases hxc : x = c
      · subst hxc
        rw [xorFold_single T g a hT
          (by rcases List.mem_cons.mp ha with h' | h'
              · exact absurd h'.symm hxa
              · exact h')
          (fun s hs hsa => h s (by simp [hs]) hsa (fun he => hx (he ▸ hs)))]
        rw [Nat.xor_comm]
      · rw [h x (by simp) hxa hxc, Nat.zero_xor]
        refine ih hT ?_ ?_ (fun s hs => h s (by simp [hs]))
        · rcases List.mem_cons.mp ha with h' | h'
          · exact absurd h'.symm hxa
          · exact h'
        · rcases List.mem_cons.mp hc with h' | h'
          · exact absurd h'.symm hxc
          · exact h'

/-- The per-square contribution of a board to the Zobrist hash. -/
def contrib (prns : Square → Fin 2 → Fin 6 → Nat) (b : Board) (s : Square) : Nat :=
  match b.pieces s with
  | some p => fold8 (prns s p.color.idx p.role.idx)
  | none => 0

theorem zwrite_eq_xor_fold8 (state : Nat) (x : Nat) :
    zwrite state (leBytes64 x) = state ^^^ fold8 x := by
  rw [zwrite_eq_foldl]
  unfold fold8
  rw [zwrite_eq_foldl]
  generalize leBytes64 x = L
  induction L generalizing state with
  | nil => simp
  | cons b T ih =>
    simp only [List.foldl_cons, Nat.zero_xor]
    rw [ih (state ^^^ b), ih b, ← Nat.xor_assoc]

theorem hashBoard_eq_xorFold (prns : Square → Fin 2 → Fin 6 → Nat) (b : Board) :
    hashBoard prns b = xorFold squareList (contrib prns b) := by
  unfold hashBoard zfinish znew xorFold
  have hstep : ∀ (state : Nat) (s : Square),
      (match b.pieces s with
       | some p => zwrite state (leBytes64 (prns s p.color.idx p.role.idx))
       | none => state) = state ^^^ contrib prns b s := by
    intro state s
    unfold contrib
    cases b.pieces s with
    | none => simp
    | some p => exact zwrite_eq_xor_fold8 state _
  have : (fun (state : Nat) (s : Square) =>
      match b.pieces s with
      | some p => zwrite state (leBytes64 (prns s p.color.idx p.role.idx))
      | none => state) = fun state s => state ^^^ contrib prns b s := by
    funext state s
    exact hstep state s
  rw [this]

theorem Bitboard.move_roundtrip (x : Bitboard) (a c : Square) (hx : x < 2 ^ 64)
    (ha : x.testBit a.val = true) (hc : x.testBit c.val = false) (hac : a ≠ c) :
    (((x.remove a).insert c).remove c).insert a = x := by
  have hvac : a.val ≠ c.val := fun h => hac (Fin.ext h)
  have h1 : x.remove a < 2 ^ 64 := Bitboard.remove_lt _ _ hx
  have h2 : (x.remove a).insert c < 2 ^ 64 := Bitboard.insert_lt _ _ h1
  apply Nat.eq_of_testBit_eq
  intro i
  rw [Bitboard.testBit_insert, Bitboard.testBit_remove _ _ _ h2,
    Bitboard.testBit_insert, Bitboard.testBit_remove _ _ _ hx]
  by_cases hia : i = a.val
  · subst hia
    simp [ha]
  · by_cases hic : i = c.val
    · subst hic
      simp [hc, hia]
    · have e1 : (i == a.val) = false := by simp [hia]
      have e2 : (i == c.val) = false := by simp [hic]
      rw [e1, e2]
      simp

theorem update_pieces_roundtrip (f : Square → Option Piece) (a c : Square)
    (p : Piece) (hac : a ≠ c) (hfa : f a = some p) (hfc : f c = none) :
    Function.update (Function.update (Function.update (Function.update f a none)
      c (some p)) c none) a (some p) = f := by
  funext t
  by_cases hta : t = a
  · subst hta
    rw [Function.update_same, hfa]
  · rw [Function.update_noteq hta]
    by_cases htc : t = c
    · subst htc
      rw [Function.update_same, hfc]
    · rw [Function.update_noteq htc, Function.update_noteq htc,
        Function.update_noteq hta]

/-- Moving a non-king piece from `a` to an empty square `c` and back
restores the board exactly; along the way the intermediate board has the
mover on `c`, square `a` empty, and everything else untouched. -/
theorem Board.move_move_back {b : Board} {a c : Square} {p : Piece} {ri : Fin 5}
    (hinv : b.checkInv = true) (hpa : b.pieces a = some p)
    (hri : p.role.pieceIdx = some ri) (hpc : b.pieces c = none) :
    ∃ b1, b.move a c = some (b1, none) ∧
      b1.pieces a = none ∧ b1.pieces c = some p ∧
      (∀ t, t ≠ a → t ≠ c → b1.pieces t = b.pieces t) ∧
      b1.move c a = some (b, none) := by
  have hac : a ≠ c := by
    intro he
    rw [he, hpc] at hpa
    exact Option.noConfusion hpa
  have hwc := Board.checkInv_colors_lt hinv
  have hwr := Board.checkInv_roles_lt hinv
  have hmova := Board.inv_nonking hinv hpa hri
  have hmovc := Board.inv_none hinv hpc
  have hbca : (b.colors p.color.idx).testBit a.val = true := by
    rw [← Bitboard.contains_eq_testBit]; exact hmova.1
  have hbcc : (b.colors p.color.idx).testBit c.val = false := by
    rw [← Bitboard.contains_eq_testBit]; exact hmovc.1 p.color.idx
  have hbra : (b.roles ri).testBit a.val = true := by
    rw [← Bitboard.contains_eq_testBit]; exact hmova.2.2.1
  have hbrc : (b.roles ri).testBit c.val = false := by
    rw [← Bitboard.contains_eq_testBit]; exact hmovc.2.1 ri
  simp only [Board.move, hpa, hri, hpc]
  refine ⟨_, rfl, ?_, ?_, ?_, ?_⟩
  · simp only [Function.update_noteq hac, Function.update_same]
  · simp only [Function.update_same]
  · intro t hta htc
    simp only [Function.update_noteq htc, Function.update_noteq hta]
  · simp only [Board.move, Function.update_same, Function.update_noteq hac, hri]
    obtain ⟨bc, br, bk, bp⟩ := b
    simp only [Option.some.injEq, Prod.mk.injEq, Board.mk.injEq, and_true]
    refine ⟨?_, ?_, ?_⟩
    · funext i
      by_cases hi : i = p.color.idx
      · subst hi
        simp only [Function.update_same]
        exact Bitboard.move_roundtrip _ a c (hwc _) hbca hbcc hac
      · simp only [Function.update_noteq hi]
    · funext i
      by_cases hi : i = ri
      · subst hi
        simp only [Function.update_same]
        exact Bitboard.move_roundtrip _ a c (hwr _) hbra hbrc hac
      · simp only [Function.update_noteq hi]
    · exact ⟨trivial, update_pieces_roundtrip bp a c p hac hpa hpc⟩

/-- C10 (amended): the Zobrist board hash is deterministic (a pure function
of the board and the fixed constants); for a non-capturing single non-king
piece move on an invariant-satisfying board, moving the piece back restores
the original hash exactly (the hash is an XOR-combination of the fixed
per-feature constants' folded bytes); and the move changes the hash
whenever the folded constants of the departure and arrival features differ
— which the byte-folding hasher does not guarantee for every draw of the
compile-time-random constants. -/
theorem C10_zobrist_hash_amended (prns : Square → Fin 2 → Fin 6 → Nat)
    (b : Board) (a c : Square) (p : Piece) (hinv : b.checkInv = true)
    (hpa : b.pieces a = some p) (hpk : p.role ≠ .king)
    (hpc : b.pieces c = none) :
    (∀ b2 : Board, b2 = b → hashBoard prns b2 = hashBoard prns b) ∧
    ((b.move a c).bind (fun r => r.1.move c a)).map
      (fun r => hashBoard prns r.1) = some (hashBoard prns b) ∧
    (fold8 (prns a p.color.idx p.role.idx) ≠ fold8 (prns c p.color.idx p.role.idx) →
      (b.move a c).map (fun r => hashBoard prns r.1) ≠ some (hashBoard prns b)) := by
  obtain ⟨ri, hri⟩ := Role.pieceIdx_isSome hpk
  obtain ⟨b1, hmv, h1a, h1c, h1rest, hback⟩ :=
    Board.move_move_back hinv hpa hri hpc
  have hac : a ≠ c := by
    intro he
    rw [he, hpc] at hpa
    exact Option.noConfusion hpa
  refine ⟨fun b2 h2 => by rw [h2], ?_, ?_⟩
  · rw [hmv]
    show (b1.move c a).map (fun r => hashBoard prns r.1) = _
    rw [hback]
    rfl
  · intro hfold
    rw [hmv]
    intro heq
    have heq' : hashBoard prns b1 = hashBoard prns b :=
      Option.some_injective _ heq
    have hdiff : hashBoard prns b1 ^^^ hashBoard prns b =
        fold8 (prns a p.color.idx p.role.idx) ^^^
          fold8 (prns c p.color.idx p.role.idx) := by
      rw [hashBoard_eq_xorFold, hashBoard_eq_xorFold, ← xorFold_xor,
        xorFold_pair squareList _ a c (List.nodup_finRange 64)
          (List.mem_finRange a) (List.mem_finRange c) hac
          (fun s _ hsa hsc => by
            show contrib prns b1 s ^^^ contrib prns b s = 0
            unfold contrib
            rw [h1rest s hsa hsc]
            exact Nat.xor_self _)]
      show (contrib prns b1 a ^^^ contrib prns b a) ^^^
        (contrib prns b1 c ^^^ contrib prns b c) = _
      unfold contrib
      rw [h1a, h1c, hpa, hpc]
      simp
    rw [heq', Nat.xor_self] at hdiff
    exact hfold (Nat.xor_eq_zero.mp hdiff.symm)

/-- An all-zero draw of the Zobrist constants (the compile-time random
values are not fixed by the source, so any draw is possible). -/
def prnsZero : Square → Fin 2 → Fin 6 → Nat := fun _ _ _ => 0

/-- A board with a white pawn on a2 (8) besides the two kings. -/
def c10Board : Board := (Board.new.place 8 ⟨.white, .pawn⟩).1

/-- C10 counterexample: with an all-zero draw of the compile-time-random
Zobrist constants, moving the white pawn from a2 (8) to a3 (16) — a legal
single-piece move on an invariant-satisfying board — leaves the hash
unchanged, refuting the claim that performing any single-piece move always
changes the hash. -/
theorem C10_counterexample :
    Board.checkInv c10Board = true ∧
    c10Board.pieces 8 = some ⟨.white, .pawn⟩ ∧
    (Piece.mk .white .pawn).role ≠ .king ∧
    c10Board.pieces 16 = none ∧
    (c10Board.move 8 16).map (fun r => hashBoard prnsZero r.1) =
      some (hashBoard prnsZero c10Board) := by
  decide

/-- Witness for C10 (amended) at a concrete board and move. -/
theorem C10_witness :
    ((c10Board.move 8 16).bind (fun r => r.1.move 16 8)).map
      (fun r => hashBoard prnsZero r.1) = some (hashBoard prnsZero c10Board) :=
  (C10_zobrist_hash_amended prnsZero c10Board 8 16 ⟨.white, .pawn⟩
    (by decide) (by decide) (by decide) (by decide)).2.1

/-! ### Subset enumeration (spec §4.2)

`Bitboard::subsets` and `Bitboard::subsets_slow` are called by
`src/bits/tests.rs` and `src/movegen/magic.rs` but their bodies are not
under `src/`; they are modelled from the spec below. -/

/-- Modelled from the spec: one step of the mask-decrement enumeration,
`next = (subset - mask) & mask`, with the `u64` wrapping subtraction
written out as `(s + (2^64 - m)) % 2^64`. -/
def nextSubset (m s : Nat) : Nat := ((s + (2 ^ 64 - m)) % 2 ^ 64) &&& m

/-- Fuel-indexed loop collecting the subsets visited by `nextSubset`
until the enumeration cycles back to the empty bitboard. -/
def subsetsAux (m : Nat) : Nat → Nat → List Nat
  | 0, _ => []
  | fuel + 1, s => if s = 0 then [] else s :: subsetsAux m fuel (nextSubset m s)

/-- Modelled from the spec: `Bitboard::subsets` (missing from `src/`,
used by `src/bits/tests.rs` and `src/movegen/magic.rs`): start from the
empty subset and repeatedly compute `(subset - mask) & mask` until it
cycles back to empty. -/
def subsets (m : Nat) : List Nat := 0 :: subsetsAux m (2 ^ 64) (nextSubset m 0)

/-- Fuel-indexed body of `subsetsSlow` (structural recursion on the fuel
so that concrete values compute in the kernel). -/
def subsetsSlowAux : Nat → Nat → List Nat
  | 0, _ => [0]
  | fuel + 1, m =>
    if m = 0 then [0]
    else
      (subsetsSlowAux fuel (m / 2)).map (fun x => 2 * x) ++
        (if m % 2 = 1 then (subsetsSlowAux fuel (m / 2)).map (fun x => 2 * x + 1)
         else [])

/-- Modelled from the spec: `Bitboard::subsets_slow` (missing from
`src/`), the naive reference enumeration that decomposes the mask by bit
position: a subset either leaves the current low bit clear or (when the
mask has it) sets it, recursing on the remaining bits. -/
def subsetsSlow (m : Nat) : List Nat := subsetsSlowAux m m

/-- Fuel-indexed body of `popcount`. -/
def popcountAux : Nat → Nat → Nat
  | 0, _ => 0
  | fuel + 1, m => if m = 0 then 0 else m % 2 + popcountAux fuel (m / 2)

/-- `popcount` of a natural number (for a `u64` value this is
`u64::count_ones`). -/
def popcount (m : Nat) : Nat := popcountAux m m

/-- The subsets of `m` in increasing numeric order, by high-bit
decomposition; proof scaffolding used to analyse the `nextSubset` orbit. -/
def subsetsInc (m : Nat) : List Nat :=
  if h : m = 0 then [0]
  else
    subsetsInc (m - 2 ^ Nat.log2 m) ++
      (subsetsInc (m - 2 ^ Nat.log2 m)).map (fun x => 2 ^ Nat.log2 m + x)
decreasing_by
  exact Nat.sub_lt (Nat.pos_of_ne_zero h) (Nat.two_pow_pos _)

/-! ### Subset/bit helper lemmas -/

theorem sub_iff_testBit (s m : Nat) :
    s &&& m = s ↔ ∀ i, s.testBit i = true → m.testBit i = true := by
  constructor
  · intro h i hi
    have : (s &&& m).testBit i = s.testBit i := by rw [h]
    rw [Nat.testBit_and, hi] at this
    simpa using this.symm
  · intro h
    apply Nat.eq_of_testBit_eq
    intro i
    rw [Nat.testBit_and]
    cases hs : s.testBit i
    · simp
    · simp [h i hs]

theorem sub_le_of_and_eq {s m : Nat} (h : s &&& m = s) : s ≤ m := by
  conv_lhs => rw [← h]
  exact Nat.and_le_right

theorem popcountAux_zero (fuel : Nat) : popcountAux fuel 0 = 0 := by
  cases fuel <;> simp [popcountAux]

theorem popcountAux_fuel : ∀ (f1 f2 m : Nat), m ≤ f1 → m ≤ f2 →
    popcountAux f1 m = popcountAux f2 m := by
  intro f1
  induction f1 with
  | zero =>
    intro f2 m h1 _
    have : m = 0 := by omega
    subst this
    rw [popcountAux_zero, popcountAux_zero]
  | succ f ih =>
    intro f2 m h1 h2
    by_cases hm : m = 0
    · subst hm
      rw [popcountAux_zero, popcountAux_zero]
    · cases f2 with
      | zero => omega
      | succ f2' =>
        simp only [popcountAux, if_neg hm]
        rw [ih f2' (m / 2) (by omega) (by omega)]

theorem popcount_unfold (m : Nat) : popcount m = m % 2 + popcount (m / 2) := by
  by_cases h : m = 0
  · subst h
    simp [popcount, popcountAux_zero]
  · unfold popcount
    cases hm : m with
    | zero => exact absurd hm h
    | succ k =>
      subst hm
      simp only [popcountAux]
      rw [if_neg h,
        popcountAux_fuel k ((k + 1) / 2) ((k + 1) / 2) (by omega) (by omega)]

theorem subsetsSlowAux_zero (fuel : Nat) : subsetsSlowAux fuel 0 = [0] := by
  cases fuel <;> simp [subsetsSlowAux]

theorem subsetsSlowAux_fuel : ∀ (f1 f2 m : Nat), m ≤ f1 → m ≤ f2 →
    subsetsSlowAux f1 m = subsetsSlowAux f2 m := by
  intro f1
  induction f1 with
  | zero =>
    intro f2 m h1 _
    have : m = 0 := by omega
    subst this
    rw [subsetsSlowAux_zero, subsetsSlowAux_zero]
  | succ f ih =>
    intro f2 m h1 h2
    by_cases hm : m = 0
    · subst hm
      rw [subsetsSlowAux_zero, subsetsSlowAux_zero]
    · cases f2 with
      | zero => omega
      | succ f2' =>
        simp only [subsetsSlowAux, if_neg hm]
        rw [ih f2' (m / 2) (by omega) (by omega)]

theorem subsetsSlow_unfold {m : Nat} (h : m ≠ 0) :
    subsetsSlow m = (subsetsSlow (m / 2)).map (fun x => 2 * x) ++
      (if m % 2 = 1 then (subsetsSlow (m / 2)).map (fun x => 2 * x + 1)
       else []) := by
  unfold subsetsSlow
  cases hm : m with
  | zero => exact absurd hm h
  | succ k =>
    subst hm
    simp only [subsetsSlowAux]
    rw [if_neg h,
      subsetsSlowAux_fuel k ((k + 1) / 2) ((k + 1) / 2) (by omega) (by omega)]

/-- Bits of `2^hb + y` when `y < 2^hb`. -/
theorem testBit_add_high {hb y : Nat} (hy : y < 2 ^ hb) (i : Nat) :
    (2 ^ hb + y).testBit i = if i < hb then y.testBit i else decide (i = hb) := by
  have h1 : 2 ^ hb + y = 2 ^ hb * 1 + y := by ring
  rw [h1, Nat.testBit_mul_pow_two_add 1 hy i]
  by_cases hi : i < hb
  · simp [hi]
  · rw [if_neg hi, if_neg hi]
    have : Nat.testBit 1 (i - hb) = decide (i - hb = 0) := by
      cases hd : i - hb
      · simp
      · simp [Nat.testBit_succ]
    rw [this]
    simp only [decide_eq_decide]
    omega

/-- Bits of `2^k - 2^h` for `h ≤ k`. -/
theorem testBit_two_pow_sub_two_pow {k h : Nat} (hh : h ≤ k) (i : Nat) :
    (2 ^ k - 2 ^ h).testBit i = (decide (h ≤ i) && decide (i < k)) := by
  have h1 : 2 ^ k - 2 ^ h = 2 ^ h * (2 ^ (k - h) - 1) := by
    rw [Nat.mul_sub, ← pow_add, Nat.add_sub_cancel' hh, Nat.mul_one]
  rw [h1, Nat.testBit_mul_pow_two, Nat.testBit_two_pow_sub_one]
  by_cases hi : h ≤ i
  · have : (decide (i ≥ h)) = true := by simpa using hi
    rw [this, Bool.true_and, Bool.true_and]
    simp only [decide_eq_decide]
    omega
  · have : (decide (i ≥ h)) = false := by simpa using hi
    rw [this, Bool.false_and, Bool.false_and]

/-- Bits of a value in the top block `[2^64 - 2^hb, 2^64)`: the bits from
`hb` to 63 are all set. -/
theorem testBit_high_block {hb u : Nat} (hb64 : hb ≤ 64)
    (h1 : 2 ^ 64 - 2 ^ hb ≤ u) (h2 : u < 2 ^ 64) (i : Nat) :
    u.testBit i = if i < hb then (u % 2 ^ hb).testBit i else decide (i < 64) := by
  have hpos : 0 < 2 ^ hb := Nat.two_pow_pos hb
  have hsplit : 2 ^ 64 - 2 ^ hb = 2 ^ hb * (2 ^ (64 - hb) - 1) := by
    rw [Nat.mul_sub, ← pow_add, Nat.add_sub_cancel' hb64, Nat.mul_one]
  have hv : u / 2 ^ hb = 2 ^ (64 - hb) - 1 := by
    have hup : u / 2 ^ hb < 2 ^ (64 - hb) := by
      rw [Nat.div_lt_iff_lt_mul hpos]
      calc u < 2 ^ 64 := h2
        _ = 2 ^ (64 - hb) * 2 ^ hb := by rw [← pow_add]; congr 1; omega
    have hlo : 2 ^ (64 - hb) - 1 ≤ u / 2 ^ hb := by
      have := Nat.div_le_div_right (c := 2 ^ hb) h1
      rwa [hsplit, Nat.mul_div_cancel_left _ hpos] at this
    omega
  have hdecomp : u = 2 ^ hb * (2 ^ (64 - hb) - 1) + u % 2 ^ hb := by
    conv_lhs => rw [← Nat.div_add_mod u (2 ^ hb)]
    rw [hv]
  conv_lhs => rw [hdecomp]
  rw [Nat.testBit_mul_pow_two_add _ (Nat.mod_lt u hpos) i]
  by_cases hi : i < hb
  · rw [if_pos hi, if_pos hi]
  · rw [if_neg hi, if_neg hi, Nat.testBit_two_pow_sub_one]
    simp only [decide_eq_decide]
    omega

/-- Bits of `u - 2^hb` for `u` in the top block: bit `hb` clears, the
bits above stay set, the bits below `hb` are untouched. -/
theorem testBit_high_block_sub {hb u : Nat} (hb63 : hb ≤ 63)
    (h1 : 2 ^ 64 - 2 ^ hb ≤ u) (h2 : u < 2 ^ 64) (i : Nat) :
    (u - 2 ^ hb).testBit i =
      if i < hb then (u % 2 ^ hb).testBit i else decide (hb < i ∧ i < 64) := by
  have hpos : 0 < 2 ^ hb := Nat.two_pow_pos hb
  have hsplit : 2 ^ 64 - 2 ^ hb = 2 ^ hb * (2 ^ (64 - hb) - 1) := by
    rw [Nat.mul_sub, ← pow_add, Nat.add_sub_cancel' (by omega : hb ≤ 64), Nat.mul_one]
  have hv : u / 2 ^ hb = 2 ^ (64 - hb) - 1 := by
    have hup : u / 2 ^ hb < 2 ^ (64 - hb) := by
      rw [Nat.div_lt_iff_lt_mul hpos]
      calc u < 2 ^ 64 := h2
        _ = 2 ^ (64 - hb) * 2 ^ hb := by rw [← pow_add]; congr 1; omega
    have hlo : 2 ^ (64 - hb) - 1 ≤ u / 2 ^ hb := by
      have := Nat.div_le_div_right (c := 2 ^ hb) h1
      rwa [hsplit, Nat.mul_div_cancel_left _ hpos] at this
    omega
  have hge1 : (1 : Nat) ≤ 2 ^ (64 - hb) - 1 := by
    have : 2 ^ 1 ≤ 2 ^ (64 - hb) := Nat.pow_le_pow_right (by omega) (by omega)
    omega
  have hdecomp : u - 2 ^ hb = 2 ^ hb * (2 ^ (64 - hb) - 1 - 1) + u % 2 ^ hb := by
    have hu : u = 2 ^ hb * (2 ^ (64 - hb) - 1) + u % 2 ^ hb := by
      conv_lhs => rw [← Nat.div_add_mod u (2 ^ hb)]
      rw [hv]
    have hmul : 2 ^ hb * (2 ^ (64 - hb) - 1 - 1) =
        2 ^ hb * (2 ^ (64 - hb) - 1) - 2 ^ hb := by
      rw [Nat.mul_sub, Nat.mul_one]
    have hle : 2 ^ hb ≤ 2 ^ hb * (2 ^ (64 - hb) - 1) :=
      Nat.le_mul_of_pos_right _ (by omega)
    omega
  rw [hdecomp, Nat.testBit_mul_pow_two_add _ (Nat.mod_lt u hpos) i]
  by_cases hi : i < hb
  · rw [if_pos hi, if_pos hi]
  · rw [if_neg hi, if_neg hi]
    have hform : 2 ^ (64 - hb) - 1 - 1 = 2 ^ 1 * (2 ^ (63 - hb) - 1) := by
      have h2 : (2 : Nat) ^ (64 - hb) = 2 ^ 1 * 2 ^ (63 - hb) := by
        rw [← pow_add]
        congr 1
        omega
      have h1 : (2 : Nat) ^ 1 = 2 := by norm_num
      rw [h2, h1]
      omega
    rw [hform, Nat.testBit_mul_pow_two, Nat.testBit_two_pow_sub_one]
    by_cases hj : 1 ≤ i - hb
    · have e1 : decide (i - hb ≥ 1) = true := by simpa using hj
      rw [e1, Bool.true_and]
      simp only [decide_eq_decide]
      omega
    · have e1 : decide (i - hb ≥ 1) = false := by simpa using hj
      rw [e1, Bool.false_and]
      have : ¬(hb < i ∧ i < 64) := by omega
      simp [this]

/-- L1: inside the low half of the orbit, stepping with the full mask
`2^hb + m'` agrees with stepping with the sub-mask `m'`. -/
theorem nextSubset_low {hb m' s : Nat} (hb63 : hb ≤ 63) (hm' : m' < 2 ^ hb)
    (hs : s &&& m' = s) (hne : s ≠ m') :
    nextSubset (2 ^ hb + m') s = nextSubset m' s := by
  have hslt : s < m' := Nat.lt_of_le_of_ne (sub_le_of_and_eq hs) hne
  have hple : (2:Nat) ^ hb ≤ 2 ^ 63 := Nat.pow_le_pow_right (by omega) hb63
  have hm64 : m' < 2 ^ 64 := by
    have : (2:Nat) ^ 63 < 2 ^ 64 := by norm_num
    omega
  set u := s + (2 ^ 64 - m') with hu
  have hu1 : 2 ^ 64 - 2 ^ hb ≤ u := by omega
  have hu2 : u < 2 ^ 64 := by omega
  have harg : s + (2 ^ 64 - (2 ^ hb + m')) = u - 2 ^ hb := by omega
  unfold nextSubset
  rw [harg, Nat.mod_eq_of_lt (by omega), Nat.mod_eq_of_lt hu2]
  apply Nat.eq_of_testBit_eq
  intro i
  simp only [Nat.testBit_and, testBit_high_block_sub hb63 hu1 hu2,
    testBit_high_block (show hb ≤ 64 by omega) hu1 hu2,
    testBit_add_high hm']
  by_cases hi : i < hb
  · simp only [if_pos hi]
  · have hmb : m'.testBit i = false :=
      Nat.testBit_lt_two_pow (Nat.lt_of_lt_of_le hm'
        (Nat.pow_le_pow_right (by omega) (by omega)))
    simp only [if_neg hi]
    rw [hmb, Bool.and_false]
    by_cases hieq : i = hb
    · have : ¬(hb < i ∧ i < 64) := by omega
      simp [this]
    · have e2 : decide (i = hb) = false := by simp [hieq]
      rw [e2, Bool.and_false]

/-- L2: from the top of the low half (`s = m'`), the next subset is the
singleton `2^hb`. -/
theorem nextSubset_mid {hb m' : Nat} (hb63 : hb ≤ 63) (hm' : m' < 2 ^ hb) :
    nextSubset (2 ^ hb + m') m' = 2 ^ hb := by
  have hple : (2:Nat) ^ hb ≤ 2 ^ 63 := Nat.pow_le_pow_right (by omega) hb63
  have h63 : (2:Nat) ^ 63 < 2 ^ 64 := by norm_num
  have harg : m' + (2 ^ 64 - (2 ^ hb + m')) = 2 ^ 64 - 2 ^ hb := by omega
  unfold nextSubset
  rw [harg, Nat.mod_eq_of_lt (by omega)]
  apply Nat.eq_of_testBit_eq
  intro i
  simp only [Nat.testBit_and,
    testBit_two_pow_sub_two_pow (show hb ≤ 64 by omega),
    testBit_add_high hm', Nat.testBit_two_pow]
  by_cases hi : i < hb
  · have e1 : ¬ hb ≤ i := by omega
    have e2 : hb ≠ i := by omega
    simp [hi, e1, e2]
  · simp only [if_neg hi]
    by_cases hieq : i = hb
    · subst hieq
      have e2 : i < 64 := by omega
      simp [e2]
    · have e3 : hb ≠ i := fun h => hieq h.symm
      simp [hieq, e3]

/-- L3: inside the high half of the orbit, stepping with the full mask
adds `2^hb` to the step of the sub-mask. -/
theorem nextSubset_high {hb m' t : Nat} (hb63 : hb ≤ 63) (hm' : m' < 2 ^ hb)
    (ht : t &&& m' = t) (hne : t ≠ m') :
    nextSubset (2 ^ hb + m') (2 ^ hb + t) = 2 ^ hb + nextSubset m' t := by
  have htlt : t < m' := Nat.lt_of_le_of_ne (sub_le_of_and_eq ht) hne
  have hple : (2:Nat) ^ hb ≤ 2 ^ 63 := Nat.pow_le_pow_right (by omega) hb63
  have h63 : (2:Nat) ^ 63 < 2 ^ 64 := by norm_num
  have hm64 : m' < 2 ^ 64 := by omega
  set u := t + (2 ^ 64 - m') with hu
  have hu1 : 2 ^ 64 - 2 ^ hb ≤ u := by omega
  have hu2 : u < 2 ^ 64 := by omega
  have harg : 2 ^ hb + t + (2 ^ 64 - (2 ^ hb + m')) = u := by omega
  have hxle : u &&& m' ≤ m' := Nat.and_le_right
  unfold nextSubset
  rw [harg, Nat.mod_eq_of_lt hu2]
  apply Nat.eq_of_testBit_eq
  intro i
  simp only [Nat.testBit_and,
    testBit_high_block (show hb ≤ 64 by omega) hu1 hu2,
    testBit_add_high hm', testBit_add_high (show u &&& m' < 2 ^ hb by omega),
    Nat.testBit_and]
  by_cases hi : i < hb
  · simp only [if_pos hi]
  · simp only [if_neg hi]
    by_cases hieq : i = hb
    · subst hieq
      have e1 : i < 64 := by omega
      simp [e1]
    · have e2 : decide (i = hb) = false := by simp [hieq]
      rw [e2, Bool.and_false]

/-- L4: from the full mask, the enumeration wraps back to the empty
subset. -/
theorem nextSubset_top {m : Nat} (hm : m ≤ 2 ^ 64) : nextSubset m m = 0 := by
  unfold nextSubset
  have : m + (2 ^ 64 - m) = 2 ^ 64 := by omega
  rw [this, Nat.mod_self, Nat.zero_and]

/-- Splitting "subset of `2^hb + m'`" by the high bit. -/
theorem and_split_high {hb m' : Nat} (hm' : m' < 2 ^ hb) (x : Nat) :
    x &&& (2 ^ hb + m') = x ↔
      (x &&& m' = x) ∨ (∃ y, y &&& m' = y ∧ x = 2 ^ hb + y) := by
  constructor
  · intro h
    have hle : x ≤ 2 ^ hb + m' := sub_le_of_and_eq h
    rw [sub_iff_testBit] at h
    by_cases hxb : x.testBit hb
    · right
      have hge : 2 ^ hb ≤ x := Nat.testBit_implies_ge hxb
      refine ⟨x - 2 ^ hb, ?_, by omega⟩
      have hxeq : x = 2 ^ hb + (x - 2 ^ hb) := by omega
      have hylt : x - 2 ^ hb < 2 ^ hb := by omega
      rw [sub_iff_testBit]
      intro i hi
      by_cases hilt : i < hb
      · have hxi : x.testBit i = true := by
          conv_lhs => rw [hxeq]
          rw [testBit_add_high hylt i, if_pos hilt]
          exact hi
        have := h i hxi
        rwa [testBit_add_high hm' i, if_pos hilt] at this
      · exact absurd hi (by
          rw [Nat.testBit_lt_two_pow
            (Nat.lt_of_lt_of_le hylt (Nat.pow_le_pow_right (by omega) (by omega)))]
          simp)
    · left
      rw [sub_iff_testBit]
      intro i hi
      have hmi := h i hi
      rw [testBit_add_high hm' i] at hmi
      by_cases hilt : i < hb
      · rwa [if_pos hilt] at hmi
      · rw [if_neg hilt] at hmi
        have hieq : i = hb := by simpa using hmi
        subst hieq
        rw [hi] at hxb
        exact absurd rfl hxb
  · rintro (h | ⟨y, hy, rfl⟩)
    · rw [sub_iff_testBit] at h ⊢
      intro i hi
      have hmi := h i hi
      have hilt : i < hb := by
        by_contra hc
        rw [Nat.testBit_lt_two_pow
          (Nat.lt_of_lt_of_le hm'
            (Nat.pow_le_pow_right (by omega) (by omega)))] at hmi
        exact Bool.noConfusion hmi
      rw [testBit_add_high hm' i, if_pos hilt]
      exact hmi
    · have hylt : y < 2 ^ hb := Nat.lt_of_le_of_lt (sub_le_of_and_eq hy) hm'
      rw [sub_iff_testBit] at hy ⊢
      intro i hi
      rw [testBit_add_high hylt i] at hi
      rw [testBit_add_high hm' i]
      by_cases hilt : i < hb
      · rw [if_pos hilt] at hi ⊢
        exact hy i hi
      · rw [if_neg hilt] at hi ⊢
        exact hi

theorem popcount_add_two_pow : ∀ (hb m' : Nat), m' < 2 ^ hb →
    popcount (2 ^ hb + m') = popcount m' + 1 := by
  intro hb
  induction hb with
  | zero =>
    intro m' h
    have : m' = 0 := by omega
    subst this
    decide
  | succ hb ih =>
    intro m' h
    have h2 : (2 : Nat) ^ (hb + 1) = 2 * 2 ^ hb := by rw [pow_succ]; ring
    rw [popcount_unfold (2 ^ (hb + 1) + m'), popcount_unfold m']
    have hmod : (2 ^ (hb + 1) + m') % 2 = m' % 2 := by omega
    have hdiv : (2 ^ (hb + 1) + m') / 2 = 2 ^ hb + m' / 2 := by omega
    rw [hmod, hdiv, ih (m' / 2) (by omega)]
    omega

theorem popcount_le : ∀ (k m : Nat), m < 2 ^ k → popcount m ≤ k := by
  intro k
  induction k with
  | zero =>
    intro m h
    have : m = 0 := by omega
    subst this
    decide
  | succ k ih =>
    intro m h
    rw [popcount_unfold]
    have h2 : (2 : Nat) ^ (k + 1) = 2 * 2 ^ k := by rw [pow_succ]; ring
    have := ih (m / 2) (by omega)
    omega

theorem subsetsInc_zero_eq : subsetsInc 0 = [0] := by
  rw [subsetsInc]
  simp

theorem subsetsInc_unfold {m : Nat} (h : m ≠ 0) :
    subsetsInc m = subsetsInc (m - 2 ^ Nat.log2 m) ++
      (subsetsInc (m - 2 ^ Nat.log2 m)).map (fun x => 2 ^ Nat.log2 m + x) := by
  conv_lhs => rw [subsetsInc]
  rw [dif_neg h]

theorem log2_decomp {m : Nat} (h : m ≠ 0) :
    m - 2 ^ Nat.log2 m < 2 ^ Nat.log2 m ∧ 2 ^ Nat.log2 m ≤ m := by
  have h1 := Nat.log2_self_le h
  have h2 := Nat.lt_log2_self (n := m)
  have h3 : (2 : Nat) ^ (Nat.log2 m + 1) = 2 * 2 ^ Nat.log2 m := by
    rw [pow_succ]; ring
  omega

theorem subsetsInc_length : ∀ m, (subsetsInc m).length = 2 ^ popcount m := by
  intro m
  induction m using Nat.strong_induction_on with
  | _ m ih =>
    by_cases h : m = 0
    · subst h
      rw [subsetsInc_zero_eq]
      decide
    · obtain ⟨hm', hle⟩ := log2_decomp h
      have hpos : 0 < 2 ^ Nat.log2 m := Nat.two_pow_pos _
      rw [subsetsInc_unfold h, List.length_append, List.length_map,
        ih _ (by omega)]
      have hm : m = 2 ^ Nat.log2 m + (m - 2 ^ Nat.log2 m) := by omega
      conv_rhs => rw [hm]
      rw [popcount_add_two_pow _ _ hm', pow_succ]
      ring

theorem subsetsInc_mem : ∀ m x, x ∈ subsetsInc m ↔ x &&& m = x := by
  intro m
  induction m using Nat.strong_induction_on with
  | _ m ih =>
    intro x
    by_cases h : m = 0
    · subst h
      rw [subsetsInc_zero_eq]
      simp [Nat.and_zero, eq_comm]
    · obtain ⟨hm', hle⟩ := log2_decomp h
      have hpos : 0 < 2 ^ Nat.log2 m := Nat.two_pow_pos _
      have hm : m = 2 ^ Nat.log2 m + (m - 2 ^ Nat.log2 m) := by omega
      rw [subsetsInc_unfold h, List.mem_append, List.mem_map]
      conv_rhs => rw [hm]
      rw [and_split_high hm' x]
      constructor
      · rintro (hx | ⟨a, ha, rfl⟩)
        · exact Or.inl ((ih _ (by omega) x).mp hx)
        · exact Or.inr ⟨a, (ih _ (by omega) a).mp ha, rfl⟩
      · rintro (hx | ⟨y, hy, rfl⟩)
        · exact Or.inl ((ih _ (by omega) x).mpr hx)
        · exact Or.inr ⟨y, (ih _ (by omega) y).mpr hy, rfl⟩

theorem subsetsInc_nodup : ∀ m, (subsetsInc m).Nodup := by
  intro m
  induction m using Nat.strong_induction_on with
  | _ m ih =>
    by_cases h : m = 0
    · subst h
      rw [subsetsInc_zero_eq]
      simp
    · obtain ⟨hm', hle⟩ := log2_decomp h
      have hpos : 0 < 2 ^ Nat.log2 m := Nat.two_pow_pos _
      rw [subsetsInc_unfold h, List.nodup_append]
      refine ⟨ih _ (by omega), ?_, ?_⟩
      · exact (ih _ (by omega)).map (fun a b hab => by omega)
      · intro x hx hx2
        obtain ⟨y, hy, hxy⟩ := List.mem_map.mp hx2
        have h1 : x ≤ m - 2 ^ Nat.log2 m :=
          sub_le_of_and_eq ((subsetsInc_mem _ x).mp hx)
        omega

theorem subsetsInc_ne_nil : ∀ m, subsetsInc m ≠ [] := by
  intro m
  by_cases h : m = 0
  · subst h
    rw [subsetsInc_zero_eq]
    simp
  · rw [subsetsInc_unfold h]
    intro hc
    exact subsetsInc_ne_nil _ (List.append_eq_nil.mp hc).1
decreasing_by
  exact Nat.sub_lt (Nat.pos_of_ne_zero h) (Nat.two_pow_pos _)

theorem subsetsInc_head : ∀ m, (subsetsInc m).head? = some 0 := by
  intro m
  induction m using Nat.strong_induction_on with
  | _ m ih =>
    by_cases h : m = 0
    · subst h
      rw [subsetsInc_zero_eq]
      rfl
    · obtain ⟨hm', hle⟩ := log2_decomp h
      have hpos : 0 < 2 ^ Nat.log2 m := Nat.two_pow_pos _
      rw [subsetsInc_unfold h]
      cases hS : subsetsInc (m - 2 ^ Nat.log2 m) with
      | nil => exact absurd hS (subsetsInc_ne_nil _)
      | cons a T =>
        have := ih _ (show m - 2 ^ Nat.log2 m < m by omega)
        rw [hS] at this
        simpa using this

theorem subsetsInc_last : ∀ m, (subsetsInc m).getLast? = some m := by
  intro m
  induction m using Nat.strong_induction_on with
  | _ m ih =>
    by_cases h : m = 0
    · subst h
      rw [subsetsInc_zero_eq]
      rfl
    · obtain ⟨hm', hle⟩ := log2_decomp h
      have hpos : 0 < 2 ^ Nat.log2 m := Nat.two_pow_pos _
      rw [subsetsInc_unfold h, List.getLast?_append, List.getLast?_map,
        ih _ (show m - 2 ^ Nat.log2 m < m by omega)]
      simp only [Option.map_some', Option.or_some]
      congr 1
      omega

/-- Adjacent-link check for the `nextSubset` orbit, along a list. -/
def linksOk (m : Nat) : List Nat → Bool
  | [] => true
  | [_] => true
  | a :: b :: rest => (nextSubset m a == b) && linksOk m (b :: rest)

theorem mem_dropLast_ne_last {l : List Nat} (hnd : l.Nodup) {la : Nat}
    (hl : l.getLast? = some la) {x : Nat} (hx : x ∈ l.dropLast) : x ≠ la := by
  have hne : l ≠ [] := by
    intro hc
    rw [hc] at hl
    exact Option.noConfusion hl
  have heq := List.dropLast_append_getLast hne
  have hlast : l.getLast hne = la := by
    have h2 := List.getLast?_eq_getLast l hne
    rw [hl] at h2
    exact (Option.some_injective _ h2).symm
  intro hxla
  rw [← heq] at hnd
  exact (List.nodup_append.mp hnd).2.2 hx (by simp [hlast, hxla])

theorem linksOk_transfer {m1 m2 : Nat} : ∀ (l : List Nat),
    (∀ a ∈ l.dropLast, nextSubset m2 a = nextSubset m1 a) →
    linksOk m1 l = true → linksOk m2 l = true := by
  intro l
  induction l with
  | nil => intro _ _; rfl
  | cons a T ih =>
    cases T with
    | nil => intro _ _; rfl
    | cons b T' =>
      intro h hl
      simp only [linksOk, Bool.and_eq_true, beq_iff_eq] at hl ⊢
      refine ⟨?_, ih (fun x hx => h x (List.mem_cons_of_mem a hx)) hl.2⟩
      rw [h a (List.mem_cons_self a _)]
      exact hl.1

theorem linksOk_map_shift {m1 m2 : Nat} {f : Nat → Nat} : ∀ (l : List Nat),
    (∀ a ∈ l.dropLast, nextSubset m2 (f a) = f (nextSubset m1 a)) →
    linksOk m1 l = true → linksOk m2 (l.map f) = true := by
  intro l
  induction l with
  | nil => intro _ _; rfl
  | cons a T ih =>
    cases T with
    | nil => intro _ _; rfl
    | cons b T' =>
      intro h hl
      simp only [linksOk, Bool.and_eq_true, beq_iff_eq] at hl
      show linksOk m2 (f a :: f b :: (T'.map f)) = true
      simp only [linksOk, Bool.and_eq_true, beq_iff_eq]
      refine ⟨?_, ih (fun x hx => h x (List.mem_cons_of_mem a hx)) hl.2⟩
      rw [h a (List.mem_cons_self a _), hl.1]

theorem linksOk_append {m : Nat} : ∀ (l1 : List Nat) {l2 : List Nat} {x y : Nat},
    linksOk m l1 = true → linksOk m l2 = true →
    l1.getLast? = some x → l2.head? = some y → nextSubset m x = y →
    linksOk m (l1 ++ l2) = true := by
  intro l1
  induction l1 with
  | nil =>
    intro l2 x y _ _ hx _ _
    exact Option.noConfusion hx
  | cons a T ih =>
    cases T with
    | nil =>
      intro l2 x y _ h2 hx hy hlink
      cases l2 with
      | nil => exact Option.noConfusion hy
      | cons b L2 =>
        have hxa : x = a := by simpa using hx.symm
        have hyb : y = b := by simpa using hy.symm
        show linksOk m (a :: b :: L2) = true
        simp only [linksOk, Bool.and_eq_true, beq_iff_eq]
        exact ⟨by rw [← hxa, ← hyb]; exact hlink, h2⟩
    | cons c T' =>
      intro l2 x y h1 h2 hx hy hlink
      simp only [linksOk, Bool.and_eq_true, beq_iff_eq] at h1
      show linksOk m (a :: c :: (T' ++ l2)) = true
      simp only [linksOk, Bool.and_eq_true, beq_iff_eq]
      refine ⟨h1.1, ?_⟩
      show linksOk m ((c :: T') ++ l2) = true
      exact ih h1.2 h2 (by rw [← List.getLast?_cons_cons]; exact hx) hy hlink

theorem subsetsInc_links : ∀ m, m < 2 ^ 64 → linksOk m (subsetsInc m) = true := by
  intro m
  induction m using Nat.strong_induction_on with
  | _ m ih =>
    intro hm64
    by_cases h : m = 0
    · subst h
      rw [subsetsInc_zero_eq]
      rfl
    · obtain ⟨hm', hle⟩ := log2_decomp h
      have hpos : 0 < 2 ^ Nat.log2 m := Nat.two_pow_pos _
      have hb63 : Nat.log2 m ≤ 63 := by
        by_contra hc
        have : (2 : Nat) ^ 64 ≤ 2 ^ Nat.log2 m :=
          Nat.pow_le_pow_right (by omega) (by omega)
        omega
      rw [subsetsInc_unfold h]
      set hb := Nat.log2 m with hbdef
      set m2 := m - 2 ^ hb with m2def
      have hmeq : m = 2 ^ hb + m2 := by omega
      have hm2m : m2 < m := by omega
      have hm2_64 : m2 < 2 ^ 64 := by omega
      have hdl : ∀ a ∈ (subsetsInc m2).dropLast,
          a &&& m2 = a ∧ a ≠ m2 := by
        intro a ha
        refine ⟨(subsetsInc_mem _ a).mp (List.dropLast_subset _ ha), ?_⟩
        exact mem_dropLast_ne_last (subsetsInc_nodup _) (subsetsInc_last _) ha
      apply linksOk_append (x := m2) (y := 2 ^ hb + 0)
      · apply @linksOk_transfer m2 m _
        · intro a ha
          obtain ⟨hsub, hne⟩ := hdl a ha
          conv_lhs => rw [hmeq]
          exact nextSubset_low hb63 hm' hsub hne
        · exact ih _ hm2m hm2_64
      · apply @linksOk_map_shift m2 m _ _
        · intro a ha
          obtain ⟨hsub, hne⟩ := hdl a ha
          conv_lhs => rw [hmeq]
          exact nextSubset_high hb63 hm' hsub hne
        · exact ih _ hm2m hm2_64
      · exact subsetsInc_last _
      · rw [List.head?_map, subsetsInc_head _]
        rfl
      · conv_lhs => rw [hmeq]
        have hmid := nextSubset_mid hb63 hm'
        rw [hmid]
        omega

theorem subsetsAux_zero_arg (m : Nat) : ∀ fuel, subsetsAux m fuel 0 = [] := by
  intro fuel
  cases fuel <;> simp [subsetsAux]

theorem subsetsAux_of_chain (m : Nat) : ∀ (L : List Nat) (a fuel : Nat),
    linksOk m (a :: L) = true → (∀ x ∈ a :: L, x ≠ 0) →
    nextSubset m (((a :: L).getLast?).getD 0) = 0 →
    (a :: L).length ≤ fuel →
    subsetsAux m fuel a = a :: L := by
  intro L
  induction L with
  | nil =>
    intro a fuel _ hne hlast hlen
    cases fuel with
    | zero => simp at hlen
    | succ f =>
      simp only [subsetsAux]
      rw [if_neg (hne a (by simp))]
      simp only [List.getLast?_singleton, Option.getD_some] at hlast
      rw [hlast, subsetsAux_zero_arg]
  | cons b T ih =>
    intro a fuel hlinks hne hlast hlen
    cases fuel with
    | zero => simp at hlen
    | succ f =>
      simp only [subsetsAux]
      rw [if_neg (hne a (by simp))]
      simp only [linksOk, Bool.and_eq_true, beq_iff_eq] at hlinks
      rw [hlinks.1]
      congr 1
      refine ih b f hlinks.2 (fun x hx => hne x (List.mem_cons_of_mem a hx)) ?_ ?_
      · rwa [← List.getLast?_cons_cons (a := a)]
      · simp only [List.length_cons] at hlen ⊢
        omega

theorem subsets_eq_subsetsInc (m : Nat) (hm : m < 2 ^ 64) :
    subsets m = subsetsInc m := by
  by_cases h : m = 0
  · subst h
    rw [subsetsInc_zero_eq]
    unfold subsets
    have h0 : nextSubset 0 0 = 0 := by
      unfold nextSubset
      rw [Nat.and_zero]
    rw [h0, subsetsAux_zero_arg]
  · cases hS : subsetsInc m with
    | nil => exact absurd hS (subsetsInc_ne_nil m)
    | cons a T =>
      have hhead := subsetsInc_head m
      rw [hS] at hhead
      have ha : a = 0 := by simpa using hhead
      subst ha
      have hlinks := subsetsInc_links m hm
      rw [hS] at hlinks
      have hnd := subsetsInc_nodup m
      rw [hS] at hnd
      have hlast := subsetsInc_last m
      rw [hS] at hlast
      have hlen := subsetsInc_length m
      rw [hS] at hlen
      cases T with
      | nil =>
        exfalso
        have h0m : (0 : Nat) = m := by simpa using hlast
        exact h h0m.symm
      | cons b T' =>
        unfold subsets
        simp only [linksOk, Bool.and_eq_true, beq_iff_eq] at hlinks
        rw [hlinks.1]
        congr 1
        refine subsetsAux_of_chain m T' b (2 ^ 64) hlinks.2 ?_ ?_ ?_
        · intro x hx hx0
          subst hx0
          exact (List.nodup_cons.mp hnd).1 hx
        · have hl2 : ((b :: T').getLast?).getD 0 = m := by
            rw [← List.getLast?_cons_cons (a := 0), hlast]
            rfl
          rw [hl2]
          exact nextSubset_top (by omega)
        · have hpc : popcount m ≤ 64 := popcount_le 64 m hm
          have hple : (2 : Nat) ^ popcount m ≤ 2 ^ 64 :=
            Nat.pow_le_pow_right (by omega) hpc
          simp only [List.length_cons] at hlen ⊢
          omega

/-- Splitting "subset" by the low bit. -/
theorem sub_cons_bit (x m : Nat) :
    x &&& m = x ↔ ((x % 2 = 1 → m % 2 = 1) ∧ (x / 2) &&& (m / 2) = x / 2) := by
  rw [sub_iff_testBit, sub_iff_testBit]
  constructor
  · intro h
    constructor
    · intro hx1
      have h0 := h 0
      rw [Nat.testBit_zero, Nat.testBit_zero] at h0
      simp only [decide_eq_true_eq] at h0
      exact h0 hx1
    · intro i hi
      have h1 := h (i + 1)
      rw [Nat.testBit_add_one, Nat.testBit_add_one] at h1
      exact h1 hi
  · rintro ⟨h0, hrest⟩ i hi
    cases i with
    | zero =>
      rw [Nat.testBit_zero] at hi ⊢
      simp only [decide_eq_true_eq] at hi ⊢
      exact h0 hi
    | succ i =>
      rw [Nat.testBit_add_one] at hi ⊢
      exact hrest i hi

theorem subsetsSlow_zero : subsetsSlow 0 = [0] := rfl

theorem subsetsSlow_mem : ∀ m x, x ∈ subsetsSlow m ↔ x &&& m = x := by
  intro m
  induction m using Nat.strong_induction_on with
  | _ m ih =>
    intro x
    by_cases h : m = 0
    · subst h
      rw [subsetsSlow_zero]
      simp [Nat.and_zero, eq_comm]
    · have hdiv : m / 2 < m := Nat.div_lt_self (Nat.pos_of_ne_zero h) (by omega)
      rw [subsetsSlow_unfold h, List.mem_append, sub_cons_bit x m]
      by_cases hpar : m % 2 = 1
      · rw [if_pos hpar]
        simp only [List.mem_map]
        constructor
        · rintro (⟨y, hy, rfl⟩ | ⟨y, hy, rfl⟩)
          · have hsub := (ih _ hdiv y).mp hy
            refine ⟨fun _ => hpar, ?_⟩
            have he : 2 * y / 2 = y := by omega
            rwa [he]
          · have hsub := (ih _ hdiv y).mp hy
            refine ⟨fun _ => hpar, ?_⟩
            have he : (2 * y + 1) / 2 = y := by omega
            rwa [he]
        · rintro ⟨_, hsub⟩
          have hmem : x / 2 ∈ subsetsSlow (m / 2) := (ih _ hdiv (x / 2)).mpr hsub
          by_cases hx2 : x % 2 = 1
          · exact Or.inr ⟨x / 2, hmem, by omega⟩
          · exact Or.inl ⟨x / 2, hmem, by omega⟩
      · rw [if_neg hpar]
        simp only [List.mem_map, List.not_mem_nil, or_false]
        constructor
        · rintro ⟨y, hy, rfl⟩
          have hsub := (ih _ hdiv y).mp hy
          refine ⟨fun hc => ?_, ?_⟩
          · omega
          · have he : 2 * y / 2 = y := by omega
            rwa [he]
        · rintro ⟨h0, hsub⟩
          have hmem : x / 2 ∈ subsetsSlow (m / 2) := (ih _ hdiv (x / 2)).mpr hsub
          have hx2 : x % 2 = 0 := by
            by_contra hc
            exact hpar (h0 (by omega))
          exact ⟨x / 2, hmem, by omega⟩

theorem subsetsSlow_nodup : ∀ m, (subsetsSlow m).Nodup := by
  intro m
  induction m using Nat.strong_induction_on with
  | _ m ih =>
    by_cases h : m = 0
    · subst h
      rw [subsetsSlow_zero]
      simp
    · have hdiv : m / 2 < m := Nat.div_lt_self (Nat.pos_of_ne_zero h) (by omega)
      rw [subsetsSlow_unfold h]
      by_cases hpar : m % 2 = 1
      · rw [if_pos hpar, List.nodup_append]
        refine ⟨(ih _ hdiv).map (fun a b hab => by omega),
          (ih _ hdiv).map (fun a b hab => by omega), ?_⟩
        intro v hv hv2
        obtain ⟨y, _, hy⟩ := List.mem_map.mp hv
        obtain ⟨z, _, hz⟩ := List.mem_map.mp hv2
        omega
      · rw [if_neg hpar, List.append_nil]
        exact (ih _ hdiv).map (fun a b hab => by omega)

theorem subsetsSlow_length : ∀ m, (subsetsSlow m).length = 2 ^ popcount m := by
  intro m
  induction m using Nat.strong_induction_on with
  | _ m ih =>
    by_cases h : m = 0
    · subst h
      decide
    · have hdiv : m / 2 < m := Nat.div_lt_self (Nat.pos_of_ne_zero h) (by omega)
      rw [subsetsSlow_unfold h, popcount_unfold m]
      by_cases hpar : m % 2 = 1
      · rw [if_pos hpar, hpar, List.length_append, List.length_map,
          List.length_map, ih _ hdiv, pow_add]
        ring
      · have hp0 : m % 2 = 0 := by omega
        rw [if_neg hpar, hp0, List.append_nil, List.length_map, ih _ hdiv,
          Nat.zero_add]

/-- C7: for every `u64` mask `M`, the mask-decrement enumeration
`subsets` yields exactly `2^popcount(M)` distinct bitboards, each a subset
of `M` (`v &&& M = v`), including the empty bitboard and `M` itself, and it
is a permutation of the naive per-bit reference enumeration
`subsets_slow` (the same collection as sets). -/
theorem C7_subset_enumeration (M : Nat) (hM : M < 2 ^ 64) :
    (subsets M).length = 2 ^ popcount M ∧
    (subsets M).Nodup ∧
    (∀ v ∈ subsets M, v &&& M = v) ∧
    0 ∈ subsets M ∧
    M ∈ subsets M ∧
    (subsets M).Perm (subsetsSlow M) := by
  have he := subsets_eq_subsetsInc M hM
  rw [he]
  refine ⟨subsetsInc_length M, subsetsInc_nodup M,
    fun v hv => (subsetsInc_mem M v).mp hv,
    (subsetsInc_mem M 0).mpr (Nat.zero_and M),
    (subsetsInc_mem M M).mpr (Nat.and_self M), ?_⟩
  rw [List.perm_ext_iff_of_nodup (subsetsInc_nodup M) (subsetsSlow_nodup M)]
  intro a
  rw [subsetsInc_mem, subsetsSlow_mem]

/-- Witness for C7 at the concrete mask 11 = 0b1011. -/
theorem C7_witness :
    (subsets 11).length = 2 ^ popcount 11 ∧ 0 ∈ subsets 11 ∧ 11 ∈ subsets 11 := by
  have h := C7_subset_enumeration 11 (by decide)
  exact ⟨h.1, h.2.2.2.1, h.2.2.2.2.1⟩

/-! ### Magic bitboard tables (src/movegen/magic.rs) -/

/-- `MagicEntry` from `src/movegen/magic.rs`: relevance mask, 64-bit
multiplier, and index width. -/
structure MagicEntry where
  mask : Bitboard
  magic : Nat
  index_bits : Nat

/-- `magic_index` from `src/movegen/magic.rs`: mask the blockers, multiply
with `u64` wrapping semantics, shift down by `64 - index_bits`. -/
def magic_index (entry : MagicEntry) (blockers : Bitboard) : Nat :=
  let blockers := blockers &&& entry.mask
  let hash := blockers * entry.magic % 2 ^ 64
  hash >>> (64 - entry.index_bits)

/-- The index formula as worded by the spec:
`((blockers ∩ entry.mask) × entry.magic mod 2^64) >> (64 − index_bits)`. -/
def magicIndexSpec (entry : MagicEntry) (blockers : Bitboard) : Nat :=
  ((blockers &&& entry.mask) * entry.magic % 2 ^ 64) >>> (64 - entry.index_bits)

theorem magic_index_lt (entry : MagicEntry) (blockers : Bitboard)
    (hbits : entry.index_bits ≤ 64) :
    magic_index entry blockers < 2 ^ entry.index_bits := by
  unfold magic_index
  rw [Nat.shiftRight_eq_div_pow]
  apply Nat.div_lt_of_lt_mul
  calc (blockers &&& entry.mask) * entry.magic % 2 ^ 64
      < 2 ^ 64 := Nat.mod_lt _ (by norm_num)
    _ = 2 ^ (64 - entry.index_bits) * 2 ^ entry.index_bits := by
        rw [← pow_add]
        congr 1
        omega

/-- The table-filling loop of `try_make_table`: for each blocker subset,
an empty slot is filled with that subset's attack set, a conflicting
nonempty slot aborts with the fill error (modelled as `none`), a matching
slot is left alone. -/
def tmtGo (attacks : Nat → Nat) (entry : MagicEntry) :
    List Nat → List Nat → Option (List Nat)
  | [], table => some table
  | blockers :: rest, table =>
    let moves := attacks blockers
    let idx := magic_index entry blockers
    let b := table.getD idx 0
    if b = 0 then tmtGo attacks entry rest (table.set idx moves)
    else if b ≠ moves then none
    else tmtGo attacks entry rest table

/-- `try_make_table` from `src/movegen/magic.rs` (release behavior): start
from a table of `1 << index_bits` empty bitboards and process every subset
of the relevance mask; the per-subset `moves` value is `todo!()` in the
source, so the attack-set computation is a parameter. -/
def try_make_table (attacks : Nat → Nat) (entry : MagicEntry) : Option (List Nat) :=
  tmtGo attacks entry (subsets entry.mask)
    (List.replicate (1 <<< entry.index_bits) 0)

/-- Modelled from the spec (§4.4): the true attack set along one ray — walk
outward from the piece's square, include the first blocking square, stop
there; eight steps of fuel suffice on an 8×8 board. -/
def rayWalk (blockers : Nat) : Nat → Int → Int → Int → Int → Nat
  | 0, _, _, _, _ => 0
  | fuel + 1, r, f, dr, df =>
    if 0 ≤ r ∧ r ≤ 7 ∧ 0 ≤ f ∧ f ≤ 7 then
      let sq := (r * 8 + f).toNat
      if blockers.testBit sq then 2 ^ sq
      else 2 ^ sq ||| rayWalk blockers fuel (r + dr) (f + df) dr df
    else 0

/-- Modelled from the spec (§4.4): union of the ray attack sets in the
given directions, starting one step away from the piece's square. -/
def slidingAttacks (dirs : List (Int × Int)) (s : Square) (blockers : Nat) : Nat :=
  dirs.foldl
    (fun acc d => acc |||
      rayWalk blockers 8 ((s.val / 8 : Nat) + d.1) ((s.val % 8 : Nat) + d.2) d.1 d.2)
    0

/-- The four rook ray directions. -/
def rookDirs : List (Int × Int) := [(1, 0), (-1, 0), (0, 1), (0, -1)]

/-- The four bishop ray directions. -/
def bishopDirs : List (Int × Int) := [(1, 1), (1, -1), (-1, 1), (-1, -1)]

/-- Modelled from the spec (§4.4): the true attack set of a sliding piece
on square `s` given the blocker configuration (the `moves = todo!()` of
`try_make_table`); only the rook and bishop are sliding pieces. -/
def trueAttacks (r : Role) (s : Square) (blockers : Nat) : Nat :=
  match r with
  | .rook => slidingAttacks rookDirs s blockers
  | .bishop => slidingAttacks bishopDirs s blockers
  | _ => 0

theorem or_ne_zero_left {x y : Nat} (h : x ≠ 0) : x ||| y ≠ 0 := by
  obtain ⟨i, hi⟩ := Nat.ne_zero_implies_bit_true h
  intro hc
  have : (x ||| y).testBit i = true := by rw [Nat.testBit_or, hi, Bool.true_or]
  rw [hc] at this
  simp at this

theorem or_ne_zero_right {x y : Nat} (h : y ≠ 0) : x ||| y ≠ 0 := by
  obtain ⟨i, hi⟩ := Nat.ne_zero_implies_bit_true h
  intro hc
  have : (x ||| y).testBit i = true := by rw [Nat.testBit_or, hi, Bool.or_true]
  rw [hc] at this
  simp at this

theorem rayWalk_ne_zero (blockers : Nat) (fuel : Nat) (r f dr df : Int)
    (h : 0 ≤ r ∧ r ≤ 7 ∧ 0 ≤ f ∧ f ≤ 7) :
    rayWalk blockers (fuel + 1) r f dr df ≠ 0 := by
  rw [rayWalk, if_pos h]
  by_cases hb : blockers.testBit ((r * 8 + f).toNat)
  · rw [if_pos hb]
    exact (Nat.two_pow_pos _).ne'
  · rw [if_neg hb]
    exact or_ne_zero_left (Nat.two_pow_pos _).ne'

theorem foldl_or_preserve {α : Type} (g : α → Nat) :
    ∀ (L : List α) (acc : Nat), acc ≠ 0 →
      L.foldl (fun a d => a ||| g d) acc ≠ 0 := by
  intro L
  induction L with
  | nil => intro acc h; exact h
  | cons d T ih =>
    intro acc h
    exact ih _ (or_ne_zero_left h)

theorem foldl_or_ne_zero {α : Type} (g : α → Nat) :
    ∀ (L : List α) (acc : Nat) (d : α), d ∈ L → g d ≠ 0 →
      L.foldl (fun a x => a ||| g x) acc ≠ 0 := by
  intro L
  induction L with
  | nil => intro acc d h; cases h
  | cons e T ih =>
    intro acc d hd hg
    rcases List.mem_cons.mp hd with h' | h'
    · subst h'
      exact foldl_or_preserve g T _ (or_ne_zero_right hg)
    · exact ih _ d h' hg

theorem trueAttacks_ne_zero (r : Role) (s : Square)
    (hr : r = .rook ∨ r = .bishop) (blockers : Nat) :
    trueAttacks r s blockers ≠ 0 := by
  have hrk : s.val / 8 ≤ 7 := by omega
  have hfl : s.val % 8 ≤ 7 := by omega
  rcases hr with rfl | rfl
  · unfold trueAttacks slidingAttacks
    by_cases hlow : s.val / 8 < 7
    · refine foldl_or_ne_zero _ rookDirs 0 (1, 0) (by simp [rookDirs]) ?_
      exact rayWalk_ne_zero _ 7 _ _ _ _ (by constructor <;> omega)
    · refine foldl_or_ne_zero _ rookDirs 0 (-1, 0) (by simp [rookDirs]) ?_
      exact rayWalk_ne_zero _ 7 _ _ _ _ (by constructor <;> omega)
  · unfold trueAttacks slidingAttacks
    by_cases hlr : s.val / 8 < 7
    · by_cases hlf : s.val % 8 < 7
      · refine foldl_or_ne_zero _ bishopDirs 0 (1, 1) (by simp [bishopDirs]) ?_
        exact rayWalk_ne_zero _ 7 _ _ _ _ (by constructor <;> omega)
      · refine foldl_or_ne_zero _ bishopDirs 0 (1, -1) (by simp [bishopDirs]) ?_
        exact rayWalk_ne_zero _ 7 _ _ _ _ (by constructor <;> omega)
    · by_cases hlf : s.val % 8 < 7
      · refine foldl_or_ne_zero _ bishopDirs 0 (-1, 1) (by simp [bishopDirs]) ?_
        exact rayWalk_ne_zero _ 7 _ _ _ _ (by constructor <;> omega)
      · refine foldl_or_ne_zero _ bishopDirs 0 (-1, -1) (by simp [bishopDirs]) ?_
        exact rayWalk_ne_zero _ 7 _ _ _ _ (by constructor <;> omega)

theorem getD_set_self (l : List Nat) (i v : Nat) (h : i < l.length) :
    (l.set i v).getD i 0 = v := by
  rw [List.getD_eq_getElem?_getD, List.getElem?_set_self h]
  rfl

theorem getD_set_ne (l : List Nat) (i j v : Nat) (h : i ≠ j) :
    (l.set i v).getD j 0 = l.getD j 0 := by
  rw [List.getD_eq_getElem?_getD, List.getElem?_set_ne h, List.getD_eq_getElem?_getD]

theorem getD_replicate (n m : Nat) : (List.replicate n (0 : Nat)).getD m 0 = 0 := by
  rw [List.getD_eq_getElem?_getD, List.getElem?_replicate]
  split <;> rfl

theorem tmtGo_spec (attacks : Nat → Nat) (entry : MagicEntry)
    (hbits : entry.index_bits ≤ 64) :
    ∀ (L processed table : List Nat),
      table.length = 2 ^ entry.index_bits →
      (∀ b ∈ processed, table.getD (magic_index entry b) 0 = attacks b) →
      (∀ i, table.getD i 0 ≠ 0 → ∃ b ∈ processed, magic_index entry b = i) →
      (∀ b ∈ processed, attacks b ≠ 0) →
      (∀ b ∈ L, attacks b ≠ 0) →
      ((tmtGo attacks entry L table = none ↔
          ∃ b1, (b1 ∈ processed ∨ b1 ∈ L) ∧
            ∃ b2, (b2 ∈ processed ∨ b2 ∈ L) ∧
              magic_index entry b1 = magic_index entry b2 ∧
              attacks b1 ≠ attacks b2) ∧
        ∀ t, tmtGo attacks entry L table = some t →
          ∀ b, (b ∈ processed ∨ b ∈ L) →
            t.getD (magic_index entry b) 0 = attacks b) := by
  intro L
  induction L with
  | nil =>
    intro processed table _ h1 _ _ _
    refine ⟨⟨fun hc => by simp [tmtGo] at hc, ?_⟩, ?_⟩
    · rintro ⟨b1, hb1, b2, hb2, hidx, hne⟩
      simp only [List.not_mem_nil, or_false] at hb1 hb2
      exact absurd (by rw [← h1 b1 hb1, ← h1 b2 hb2, hidx]) hne
    · intro t ht b hb
      simp only [List.not_mem_nil, or_false] at hb
      simp only [tmtGo, Option.some.injEq] at ht
      subst ht
      exact h1 b hb
  | cons blockers rest ih =>
    intro processed table hlen h1 h2 h3 h4
    have hidxlt : magic_index entry blockers < table.length := by
      rw [hlen]
      exact magic_index_lt entry blockers hbits
    have hmv : attacks blockers ≠ 0 := h4 blockers (List.mem_cons_self _ _)
    have hmm : ∀ x : Nat,
        (x ∈ blockers :: processed ∨ x ∈ rest) ↔
        (x ∈ processed ∨ x ∈ blockers :: rest) := by
      intro x
      simp only [List.mem_cons]
      tauto
    by_cases hb0 : table.getD (magic_index entry blockers) 0 = 0
    · have hstep : tmtGo attacks entry (blockers :: rest) table =
          tmtGo attacks entry rest
            (table.set (magic_index entry blockers) (attacks blockers)) := by
        simp only [tmtGo]
        rw [if_pos hb0]
      have hlen' : (table.set (magic_index entry blockers)
          (attacks blockers)).length = 2 ^ entry.index_bits := by
        rw [List.length_set]
        exact hlen
      have h1' : ∀ b ∈ blockers :: processed,
          (table.set (magic_index entry blockers)
            (attacks blockers)).getD (magic_index entry b) 0 = attacks b := by
        intro b hb
        rcases List.mem_cons.mp hb with rfl | hb
        · exact getD_set_self table _ _ hidxlt
        · by_cases hix : magic_index entry blockers = magic_index entry b
          · exact absurd (by rw [← h1 b hb, ← hix]; exact hb0) (h3 b hb)
          · rw [getD_set_ne table _ _ _ hix]
            exact h1 b hb
      have h2' : ∀ i, (table.set (magic_index entry blockers)
          (attacks blockers)).getD i 0 ≠ 0 →
          ∃ b ∈ blockers :: processed, magic_index entry b = i := by
        intro i hi
        by_cases hix : magic_index entry blockers = i
        · exact ⟨blockers, List.mem_cons_self _ _, hix⟩
        · rw [getD_set_ne table _ _ _ hix] at hi
          obtain ⟨b, hb, hbi⟩ := h2 i hi
          exact ⟨b, List.mem_cons_of_mem _ hb, hbi⟩
      have h3' : ∀ b ∈ blockers :: processed, attacks b ≠ 0 := by
        intro b hb
        rcases List.mem_cons.mp hb with rfl | hb
        · exact hmv
        · exact h3 b hb
      obtain ⟨ihA, ihB⟩ := ih (blockers :: processed) _ hlen' h1' h2' h3'
        (fun b hb => h4 b (List.mem_cons_of_mem _ hb))
      refine ⟨?_, ?_⟩
      · rw [hstep, ihA]
        constructor
        · rintro ⟨b1, hb1, b2, hb2, hi, hn⟩
          exact ⟨b1, (hmm b1).mp hb1, b2, (hmm b2).mp hb2, hi, hn⟩
        · rintro ⟨b1, hb1, b2, hb2, hi, hn⟩
          exact ⟨b1, (hmm b1).mpr hb1, b2, (hmm b2).mpr hb2, hi, hn⟩
      · intro t ht b hb
        rw [hstep] at ht
        exact ihB t ht b ((hmm b).mpr hb)
    · by_cases heq : table.getD (magic_index entry blockers) 0 = attacks blockers
      · have hstep : tmtGo attacks entry (blockers :: rest) table =
            tmtGo attacks entry rest table := by
          simp only [tmtGo]
          rw [if_neg hb0, if_neg (not_not_intro heq)]
        have h1' : ∀ b ∈ blockers :: processed,
            table.getD (magic_index entry b) 0 = attacks b := by
          intro b hb
          rcases List.mem_cons.mp hb with rfl | hb
          · exact heq
          · exact h1 b hb
        have h2' : ∀ i, table.getD i 0 ≠ 0 →
            ∃ b ∈ blockers :: processed, magic_index entry b = i := by
          intro i hi
          obtain ⟨b, hb, hbi⟩ := h2 i hi
          exact ⟨b, List.mem_cons_of_mem _ hb, hbi⟩
        have h3' : ∀ b ∈ blockers :: processed, attacks b ≠ 0 := by
          intro b hb
          rcases List.mem_cons.mp hb with rfl | hb
          · exact hmv
          · exact h3 b hb
        obtain ⟨ihA, ihB⟩ := ih (blockers :: processed) table hlen h1' h2' h3'
          (fun b hb => h4 b (List.mem_cons_of_mem _ hb))
        refine ⟨?_, ?_⟩
        · rw [hstep, ihA]
          constructor
          · rintro ⟨b1, hb1, b2, hb2, hi, hn⟩
            exact ⟨b1, (hmm b1).mp hb1, b2, (hmm b2).mp hb2, hi, hn⟩
          · rintro ⟨b1, hb1, b2, hb2, hi, hn⟩
            exact ⟨b1, (hmm b1).mpr hb1, b2, (hmm b2).mpr hb2, hi, hn⟩
        · intro t ht b hb
          rw [hstep] at ht
          exact ihB t ht b ((hmm b).mpr hb)
      · have hstep : tmtGo attacks entry (blockers :: rest) table = none := by
          simp only [tmtGo]
          rw [if_neg hb0, if_pos heq]
        refine ⟨?_, ?_⟩
        · rw [hstep]
          constructor
          · intro _
            obtain ⟨b', hb', hbi⟩ := h2 (magic_index entry blockers) hb0
            refine ⟨b', Or.inl hb', blockers,
              Or.inr (List.mem_cons_self _ _), hbi, ?_⟩
            intro hc
            exact heq (by rw [← hbi, h1 b' hb', hc])
          · intro _
            rfl
        · intro t ht
          rw [hstep] at ht
          exact Option.noConfusion ht

/-- C8: for every `MagicEntry` with `1 ≤ index_bits ≤ 63`, `magic_index`
equals `((blockers ∩ mask) × magic mod 2^64) >> (64 − index_bits)` for every
blockers bitboard, and — with the per-subset attack sets of a sliding piece,
the `todo!()` of the source — `try_make_table` fails (returns the table-fill
error, modelled as `none`) exactly when two blocker subsets of the mask hash
to the same table slot while having different attack sets, and otherwise
returns a table in which every subset's slot holds that subset's attack
set. -/
theorem C8_magic_index_and_table (entry : MagicEntry) (r : Role) (s : Square)
    (hrole : r = Role.rook ∨ r = Role.bishop)
    (hlo : 1 ≤ entry.index_bits) (hhi : entry.index_bits ≤ 63) :
    (∀ blockers, magic_index entry blockers = magicIndexSpec entry blockers) ∧
    (try_make_table (trueAttacks r s) entry = none ↔
      ∃ b1 ∈ subsets entry.mask, ∃ b2 ∈ subsets entry.mask,
        magic_index entry b1 = magic_index entry b2 ∧
        trueAttacks r s b1 ≠ trueAttacks r s b2) ∧
    (∀ table, try_make_table (trueAttacks r s) entry = some table →
      ∀ b ∈ subsets entry.mask,
        table.getD (magic_index entry b) 0 = trueAttacks r s b) := by
  have hbits : entry.index_bits ≤ 64 := by omega
  have hlen : (List.replicate (1 <<< entry.index_bits) (0 : Nat)).length =
      2 ^ entry.index_bits := by
    rw [List.length_replicate, Nat.one_shiftLeft]
  have h1 : ∀ b ∈ ([] : List Nat),
      (List.replicate (1 <<< entry.index_bits) (0 : Nat)).getD
        (magic_index entry b) 0 = trueAttacks r s b := by
    intro b hb
    cases hb
  have h2 : ∀ i, (List.replicate (1 <<< entry.index_bits) (0 : Nat)).getD i 0 ≠ 0 →
      ∃ b ∈ ([] : List Nat), magic_index entry b = i := by
    intro i hi
    exact absurd (getD_replicate _ _) hi
  have h3 : ∀ b ∈ ([] : List Nat), trueAttacks r s b ≠ 0 := by
    intro b hb
    cases hb
  have h4 : ∀ b ∈ subsets entry.mask, trueAttacks r s b ≠ 0 :=
    fun b _ => trueAttacks_ne_zero r s hrole b
  obtain ⟨hA, hB⟩ := tmtGo_spec (trueAttacks r s) entry hbits
    (subsets entry.mask) [] _ hlen h1 h2 h3 h4
  simp only [List.not_mem_nil, false_or] at hA hB
  exact ⟨fun blockers => rfl, hA, fun table ht b hb => hB table ht b hb⟩

theorem C8_witness :
    (1 ≤ 1 ∧ 1 ≤ 63) ∧ magic_index ⟨0, 0, 1⟩ 5 = magicIndexSpec ⟨0, 0, 1⟩ 5 :=
  ⟨by decide,
    (C8_magic_index_and_table ⟨0, 0, 1⟩ Role.rook ⟨0, by decide⟩
      (Or.inl rfl) (by decide) (by decide)).1 5⟩

end Patroclus
